import Mathlib

/-! lowlat: verification development for the low-latency audio core

Shallow embedding of `src/lowlat_audio/{spsc,iir,reverb,audioProcessor}.cpp`.

Conventions of the embedding

* `size_t` is a natural number below `2 ^ 64`; every arithmetic operation of the
  source on `size_t` is reduced modulo `2 ^ 64` explicitly (`wadd`, `wsub`).
* A raw pointer `T*` is the function `Nat → T` giving the element at each offset
  from the pointer; `memcpy` and indexed stores update that function.
* `float` samples are elements of an exact arithmetic type (a ring, a field or a
  linear order, as each definition needs): rounding and NaN are not modelled.
* Threads are not modelled: every operation runs to completion before the next.
-/

namespace Lowlat

/-! ## Machine words -/

/-- Number of values of a 64-bit `size_t`. -/
def WORD : Nat := 2 ^ 64

/-- Addition of two `size_t` values. -/
def wadd (a b : Nat) : Nat := (a + b) % WORD

/-- Subtraction of two `size_t` values (wraps below zero). -/
def wsub (a b : Nat) : Nat := (a + (WORD - b % WORD)) % WORD

/-- Bitwise complement of a `size_t` value (`~a`). -/
def wnot (a : Nat) : Nat := WORD - 1 - a % WORD

/-- The `n` elements found at a pointer, as a list. -/
def readPtr {T : Type} (p : Nat → T) (n : Nat) : List T := (List.range n).map p

/-- A pointer to the first element of an array holding `xs` (`d` beyond its end). -/
def ptrOf {T : Type} (d : T) (xs : List T) : Nat → T := fun i => xs.getD i d

/-- The call `memcpy(dst + dstOff, src + srcOff, n * sizeof(T))`. -/
def memcpy {T : Type} (dst : Nat → T) (dstOff : Nat) (src : Nat → T) (srcOff n : Nat) :
    Nat → T :=
  fun i => if dstOff ≤ i ∧ i < dstOff + n then src (srcOff + (i - dstOff)) else dst i

/-! ## `spsc.cpp`: `LockFreeRingBuffer<T, Size>` -/

/-- Capacities the buffer is meant for: a power of two that fits a `size_t`. -/
def ValidSize (Size : Nat) : Prop := ∃ k, k < 64 ∧ Size = 2 ^ k

instance (Size : Nat) : Decidable (ValidSize Size) := by
  unfold ValidSize
  infer_instance

/-- The data members of `LockFreeRingBuffer<T, Size>`. -/
structure LockFreeRingBuffer (T : Type) where
  write_pos : Nat
  read_pos : Nat
  buffer : Nat → T

namespace LockFreeRingBuffer

variable {T : Type}

/-- The constant `mask = Size - 1`. -/
def mask (Size : Nat) : Nat := wsub Size 1

/-- A freshly constructed buffer: both cursors zero, array contents `init`. -/
def fresh (init : Nat → T) : LockFreeRingBuffer T :=
  { write_pos := 0, read_pos := 0, buffer := init }

/-- The member function `write(data, count)`: returned count and new state. -/
def write (Size : Nat) (s : LockFreeRingBuffer T) (data : Nat → T) (count : Nat) :
    Nat × LockFreeRingBuffer T :=
  let w := s.write_pos
  let r := s.read_pos
  let available := wsub (wsub r w) 1 &&& mask Size
  let to_write := min count available
  let first_chunk := min to_write (wsub Size (w &&& mask Size))
  let buffer1 := memcpy s.buffer (w &&& mask Size) data 0 first_chunk
  let buffer2 :=
    if to_write > first_chunk then memcpy buffer1 0 data first_chunk (to_write - first_chunk)
    else buffer1
  (to_write, { write_pos := wadd w to_write, read_pos := r, buffer := buffer2 })

/-- The member function `read(data, count)`: returned count, destination, new state. -/
def read (Size : Nat) (s : LockFreeRingBuffer T) (data : Nat → T) (count : Nat) :
    Nat × (Nat → T) × LockFreeRingBuffer T :=
  let r := s.read_pos
  let w := s.write_pos
  let available := wsub w r &&& mask Size
  let to_read := min count available
  let first_chunk := min to_read (wsub Size (r &&& mask Size))
  let data1 := memcpy data 0 s.buffer (r &&& mask Size) first_chunk
  let data2 :=
    if to_read > first_chunk then memcpy data1 first_chunk s.buffer 0 (to_read - first_chunk)
    else data1
  (to_read, data2, { write_pos := w, read_pos := wadd r to_read, buffer := s.buffer })

/-- The member function `available()`. -/
def available (Size : Nat) (s : LockFreeRingBuffer T) : Nat :=
  wsub s.write_pos s.read_pos &&& mask Size

/-- One call on the buffer: a `write` with its source pointer and count, or a
`read` with its destination pointer and count. -/
inductive Op (T : Type) where
  | write (data : Nat → T) (count : Nat)
  | read (dest : Nat → T) (count : Nat)

/-- A buffer together with the history of what its calls accepted and returned. -/
structure Trace (T : Type) where
  state : LockFreeRingBuffer T
  written : List T
  readOut : List T

/-- Run one call and record the elements it accepted or returned. -/
def step (Size : Nat) (t : Trace T) : Op T → Trace T
  | Op.write data count =>
    let res := write Size t.state data count
    { state := res.2, written := t.written ++ readPtr data res.1, readOut := t.readOut }
  | Op.read dest count =>
    let res := read Size t.state dest count
    { state := res.2.2, written := t.written, readOut := t.readOut ++ readPtr res.2.1 res.1 }

/-- Run a sequence of calls, one after another, on a freshly constructed buffer. -/
def run (Size : Nat) (init : Nat → T) (ops : List (Op T)) : Trace T :=
  ops.foldl (step Size) { state := fresh init, written := [], readOut := [] }

/-- What ties a buffer to its history: the cursors are the element counts reduced
modulo `2 ^ 64`, at most `Size - 1` elements are live, everything returned is the
front of what was accepted, and the live elements sit in their slots. -/
structure Inv (Size : Nat) (t : Trace T) : Prop where
  wpos : t.state.write_pos = t.written.length % WORD
  rpos : t.state.read_pos = t.readOut.length % WORD
  le : t.readOut.length ≤ t.written.length
  room : t.written.length - t.readOut.length < Size
  out : t.readOut = t.written.take t.readOut.length
  live : ∀ i, i < t.written.length - t.readOut.length →
    t.written[t.readOut.length + i]? = some (t.state.buffer ((t.readOut.length + i) % Size))

end LockFreeRingBuffer

/-! ## `iir.cpp`: `BiquadFilter` -/

/-- The store `p[i] = v` through a pointer. -/
def store {T : Type} (p : Nat → T) (i : Nat) (v : T) : Nat → T :=
  fun j => if j = i then v else p j

/-- The data members of `BiquadFilter`: five coefficients and four history cells. -/
structure BiquadFilter (α : Type) where
  b0 : α
  b1 : α
  b2 : α
  a1 : α
  a2 : α
  x1 : α
  x2 : α
  y1 : α
  y2 : α
deriving DecidableEq

/-- A register `__m128`: four lanes, lane 0 first in memory. -/
structure M128 (α : Type) where
  e0 : α
  e1 : α
  e2 : α
  e3 : α
deriving DecidableEq

section Intrinsics

variable {α : Type}

/-- The intrinsic `_mm_setzero_ps()`. -/
def _mm_setzero_ps [Zero α] : M128 α := ⟨0, 0, 0, 0⟩

/-- The intrinsic `_mm_set1_ps(a)`. -/
def _mm_set1_ps (a : α) : M128 α := ⟨a, a, a, a⟩

/-- The intrinsic `_mm_mul_ps(a, b)`. -/
def _mm_mul_ps [Mul α] (a b : M128 α) : M128 α :=
  ⟨a.e0 * b.e0, a.e1 * b.e1, a.e2 * b.e2, a.e3 * b.e3⟩

/-- The intrinsic `_mm_add_ps(a, b)`. -/
def _mm_add_ps [Add α] (a b : M128 α) : M128 α :=
  ⟨a.e0 + b.e0, a.e1 + b.e1, a.e2 + b.e2, a.e3 + b.e3⟩

/-- The intrinsic `_mm_loadu_ps(&p[i])`. -/
def _mm_loadu_ps (p : Nat → α) (i : Nat) : M128 α := ⟨p i, p (i + 1), p (i + 2), p (i + 3)⟩

/-- The intrinsic `_mm_storeu_ps(&p[i], v)`. -/
def _mm_storeu_ps (p : Nat → α) (i : Nat) (v : M128 α) : Nat → α :=
  store (store (store (store p i v.e0) (i + 1) v.e1) (i + 2) v.e2) (i + 3) v.e3

end Intrinsics

namespace BiquadFilter

variable {α : Type}

/-- The member function `set_lowpass(sample_rate, cutoff_hz, q)`; the library's
`std::sin`, `std::cos` and `M_PI` are parameters. -/
def set_lowpass [Field α] (sin cos : α → α) (pi : α) (f : BiquadFilter α)
    (sample_rate cutoff_hz q : α) : BiquadFilter α :=
  let omega := 2 * pi * cutoff_hz / sample_rate
  let sin_omega := sin omega
  let cos_omega := cos omega
  let alpha := sin_omega / (2 * q)
  let a0 := 1 + alpha
  let b0 := ((1 - cos_omega) / 2) / a0
  { f with
    b0 := b0
    b1 := (1 - cos_omega) / a0
    b2 := b0
    a1 := (-2 * cos_omega) / a0
    a2 := (1 - alpha) / a0 }

/-- The member function `process(input)`: the output sample and the new state. -/
def process [Add α] [Sub α] [Mul α] (f : BiquadFilter α) (input : α) : α × BiquadFilter α :=
  let output := f.b0 * input + f.b1 * f.x1 + f.b2 * f.x2 - f.a1 * f.y1 - f.a2 * f.y2
  (output, { f with x2 := f.x1, x1 := input, y2 := f.y1, y1 := output })

/-- The loop `for (i = start; i < start + k; ++i) buffer[i] = process(buffer[i]);`
after its `k` iterations. -/
def scalar_loop [Add α] [Sub α] [Mul α] (start : Nat) (f : BiquadFilter α) (buffer : Nat → α) :
    Nat → BiquadFilter α × (Nat → α)
  | 0 => (f, buffer)
  | k + 1 =>
    let st := scalar_loop start f buffer k
    let r := process st.1 (st.2 (start + k))
    (r.2, store st.2 (start + k) r.1)

/-- The member function `process_buffer(buffer, samples)`. -/
def process_buffer [Add α] [Sub α] [Mul α] (f : BiquadFilter α) (buffer : Nat → α)
    (samples : Nat) : BiquadFilter α × (Nat → α) :=
  scalar_loop 0 f buffer samples

/-- The loop `for (i = 0; i < simd_end; i += 4)` of `process_buffer_sse` after `k`
iterations: the registers `state1`, `state2` and the buffer. -/
def sse_loop [Zero α] [Add α] [Mul α] (vb0 vb1 vb2 va1 va2 : M128 α) (buffer : Nat → α) :
    Nat → M128 α × M128 α × (Nat → α)
  | 0 => (_mm_setzero_ps, _mm_setzero_ps, buffer)
  | k + 1 =>
    let st := sse_loop vb0 vb1 vb2 va1 va2 buffer k
    let i := 4 * k
    let state1 := st.1
    let state2 := st.2.1
    let input := _mm_loadu_ps st.2.2 i
    let output := _mm_mul_ps input vb0
    let output := _mm_add_ps output state1
    let state1 := _mm_mul_ps input vb1
    let state1 := _mm_add_ps state1 state2
    let state1 := _mm_add_ps state1 (_mm_mul_ps output va1)
    let state2 := _mm_mul_ps input vb2
    let state2 := _mm_add_ps state2 (_mm_mul_ps output va2)
    (state1, state2, _mm_storeu_ps st.2.2 i output)

/-- The member function `process_buffer_sse(buffer, samples)`. -/
def process_buffer_sse [Zero α] [Add α] [Sub α] [Mul α] [Neg α] (f : BiquadFilter α)
    (buffer : Nat → α) (samples : Nat) : BiquadFilter α × (Nat → α) :=
  let vb0 := _mm_set1_ps f.b0
  let vb1 := _mm_set1_ps f.b1
  let vb2 := _mm_set1_ps f.b2
  let va1 := _mm_set1_ps (-f.a1)
  let va2 := _mm_set1_ps (-f.a2)
  let simd_end := samples &&& wnot 3
  let st := sse_loop vb0 vb1 vb2 va1 va2 buffer ((simd_end + 3) / 4)
  scalar_loop simd_end f st.2.2 (samples - simd_end)

/-- The input sequence of the difference equation, history first: entries `0` and
`1` are `x[-2]` and `x[-1]` (the cells `x2`, `x1`), entry `i + 2` is `x[i]`. -/
def recurrence_x (f : BiquadFilter α) (x : Nat → α) : Nat → α
  | 0 => f.x2
  | 1 => f.x1
  | i + 2 => x i

/-- The output sequence of the difference equation, history first: entries `0` and
`1` are `y[-2]` and `y[-1]` (the cells `y2`, `y1`), and entry `i + 2` is
`y[i] = b0*x[i] + b1*x[i-1] + b2*x[i-2] - a1*y[i-1] - a2*y[i-2]`. -/
def recurrence_y [Add α] [Sub α] [Mul α] (f : BiquadFilter α) (x : Nat → α) : Nat → α
  | 0 => f.y2
  | 1 => f.y1
  | i + 2 =>
    f.b0 * recurrence_x f x (i + 2) + f.b1 * recurrence_x f x (i + 1)
      + f.b2 * recurrence_x f x i
      - f.a1 * recurrence_y f x (i + 1) - f.a2 * recurrence_y f x i

end BiquadFilter

/-! ## `reverb.cpp`: `ConvolutionProcessor` -/

/-- A value of `std::complex<float>`. -/
structure Cplx (α : Type) where
  re : α
  im : α
deriving DecidableEq

instance {α : Type} [Zero α] : Zero (Cplx α) := ⟨⟨0, 0⟩⟩

instance {α : Type} [Add α] [Sub α] [Mul α] : Mul (Cplx α) :=
  ⟨fun a b => ⟨a.re * b.re - a.im * b.im, a.re * b.im + a.im * b.re⟩⟩

/-- The call `std::copy(src.begin(), src.end(), dst.begin())`; `src` must fit `dst`. -/
def std_copy {T : Type} (src dst : List T) : List T := src ++ dst.drop src.length

/-- The call `std::fill(v.begin() + k, v.end(), x)`; `k` must not exceed the size. -/
def std_fill_from {T : Type} (v : List T) (k : Nat) (x : T) : List T :=
  v.take k ++ List.replicate (v.length - k) x

namespace ConvolutionProcessor

/-- The static member function `next_power_of_2(n)` on a 64-bit `size_t`. -/
def next_power_of_2 (n : Nat) : Nat :=
  let n := wsub n 1
  let n := n ||| (n >>> 1)
  let n := n ||| (n >>> 2)
  let n := n ||| (n >>> 4)
  let n := n ||| (n >>> 8)
  let n := n ||| (n >>> 16)
  wadd n 1

end ConvolutionProcessor

/-- The data members of `ConvolutionProcessor`, in their order of declaration. -/
structure ConvolutionProcessor (α : Type) where
  block_size : Nat
  fft_size : Nat
  ir_length : Nat
  ir_spectrum : List (Cplx α)
  overlap_buffer : List α
  input_buffer : List α
  fft_buffer : List (Cplx α)

namespace ConvolutionProcessor

variable {α : Type}

/-- The member function `compute_fft(input, output)` as the source has it: an empty
body, so `output` is left as it was. -/
def compute_fft (_input : List α) (output : List (Cplx α)) : List (Cplx α) := output

/-- The member function `compute_ifft(input, output)` as the source has it: an
empty body, so `output` is left as it was. -/
def compute_ifft (_input : List (Cplx α)) (output : List α) : List α := output

/-- The constructor, with the forward transform it calls as a parameter. Members
are initialised in their order of declaration, so `fft_size` is computed before
`ir_length` is initialised: the value that read of `ir_length` yields is the
parameter `ir_length_read`. -/
def construct_with [Zero α] (fft : List α → List (Cplx α) → List (Cplx α))
    (impulse_response : List α) (block_size : Nat) (ir_length_read : Nat) :
    ConvolutionProcessor α :=
  let fft_size := next_power_of_2 (wsub (wadd block_size ir_length_read) 1)
  let ir_length := impulse_response.length
  let ir_spectrum : List (Cplx α) := List.replicate (fft_size / 2 + 1) 0
  let overlap_buffer : List α := List.replicate fft_size 0
  let input_buffer : List α := List.replicate fft_size 0
  let fft_buffer : List (Cplx α) := List.replicate (fft_size / 2 + 1) 0
  let padded_ir : List α := List.replicate fft_size 0
  let padded_ir := std_copy impulse_response padded_ir
  { block_size := block_size
    fft_size := fft_size
    ir_length := ir_length
    ir_spectrum := fft padded_ir ir_spectrum
    overlap_buffer := overlap_buffer
    input_buffer := input_buffer
    fft_buffer := fft_buffer }

/-- The member function `process(output, input)`, with the two transforms it calls
as parameters: the `block_size` samples written to `output`, and the new state. -/
def process_with [Zero α] [Add α] [Sub α] [Mul α]
    (fft : List α → List (Cplx α) → List (Cplx α))
    (ifft : List (Cplx α) → List α → List α)
    (s : ConvolutionProcessor α) (input : List α) : List α × ConvolutionProcessor α :=
  let input_buffer := std_copy input s.input_buffer
  let input_buffer := std_fill_from input_buffer s.block_size 0
  let fft_buffer := fft input_buffer s.fft_buffer
  let fft_buffer :=
    (List.range fft_buffer.length).map (fun i => fft_buffer.getD i 0 * s.ir_spectrum.getD i 0)
  let result : List α := List.replicate s.fft_size 0
  let result := ifft fft_buffer result
  let output :=
    (List.range s.block_size).map (fun i => result.getD i 0 + s.overlap_buffer.getD i 0)
  let overlap_buffer := std_copy (result.drop s.block_size) s.overlap_buffer
  (output,
   { s with
     input_buffer := input_buffer
     fft_buffer := fft_buffer
     overlap_buffer := overlap_buffer })

/-- The constructor as the source has it, calling its own `compute_fft`. -/
def construct [Zero α] (impulse_response : List α) (block_size : Nat) (ir_length_read : Nat) :
    ConvolutionProcessor α :=
  construct_with compute_fft impulse_response block_size ir_length_read

/-- The member function `process` as the source has it, calling its own
`compute_fft` and `compute_ifft`. -/
def process [Zero α] [Add α] [Sub α] [Mul α] (s : ConvolutionProcessor α) (input : List α) :
    List α × ConvolutionProcessor α :=
  process_with compute_fft compute_ifft s input

/-- Feed a sequence of blocks to `process`, one call per block: the output blocks
in order, and the final state. -/
def process_blocks [Zero α] [Add α] [Sub α] [Mul α]
    (fft : List α → List (Cplx α) → List (Cplx α))
    (ifft : List (Cplx α) → List α → List α) :
    ConvolutionProcessor α → List (List α) → List (List α) × ConvolutionProcessor α
  | s, [] => ([], s)
  | s, input :: rest =>
    let r := process_with fft ifft s input
    let rs := process_blocks fft ifft r.2 rest
    (r.1 :: rs.1, rs.2)

/-- Circular convolution of two sequences of length `F`, the time-domain operation
that the product of two spectra stands for. -/
def circular_convolution [Zero α] [Add α] [Mul α] (a b : List α) (F : Nat) : List α :=
  (List.range F).map (fun n =>
    ((List.range F).map (fun k => a.getD k 0 * b.getD ((n + F - k) % F) 0)).sum)

/-- The transforms are an exact pair obeying the convolution theorem at size `F`:
the inverse transform of the bin-wise product of two spectra is the circular
convolution of the two sequences, whatever the output vectors held before. -/
def ExactTransformPair [Zero α] [Add α] [Sub α] [Mul α]
    (fft : List α → List (Cplx α) → List (Cplx α))
    (ifft : List (Cplx α) → List α → List α) (F : Nat) : Prop :=
  ∀ (a b : List α) (o1 o2 : List (Cplx α)) (res : List α),
    a.length = F → b.length = F →
    ifft ((List.range (fft a o1).length).map
        (fun i => (fft a o1).getD i 0 * (fft b o2).getD i 0)) res
      = circular_convolution a b F

/-- Direct linear convolution: sample `n` of `h * x` is the sum of `h[k] * x[n - k]`
over `k ≤ n`. -/
def direct_convolution [Zero α] [Add α] [Mul α] (h x : List α) (n : Nat) : α :=
  ((List.range (n + 1)).map (fun k => h.getD k 0 * x.getD (n - k) 0)).sum

/-- The 4-point discrete Fourier transform of a real sequence: bins 0, 1, 2. -/
def dft4 [Zero α] [Add α] [Sub α] (input : List α) (_output : List (Cplx α)) :
    List (Cplx α) :=
  let x0 := input.getD 0 0
  let x1 := input.getD 1 0
  let x2 := input.getD 2 0
  let x3 := input.getD 3 0
  [⟨x0 + x1 + x2 + x3, 0⟩, ⟨x0 - x2, x3 - x1⟩, ⟨x0 - x1 + x2 - x3, 0⟩]

/-- The inverse of `dft4`: four real samples from bins 0, 1, 2 (bin 3 being the
conjugate of bin 1). -/
def idft4 [Field α] (input : List (Cplx α)) (_output : List α) : List α :=
  let X0 := input.getD 0 0
  let X1 := input.getD 1 0
  let X2 := input.getD 2 0
  [(X0.re + 2 * X1.re + X2.re) / 4, (X0.re - 2 * X1.im - X2.re) / 4,
   (X0.re - 2 * X1.re + X2.re) / 4, (X0.re + 2 * X1.im - X2.re) / 4]

end ConvolutionProcessor

/-! ## `audioProcessor.cpp`: `RealtimeAudioProcessor` -/

/-- The data members of `RealtimeAudioProcessor` that the control and audio paths
use: the filter and the two atomic parameters. -/
structure RealtimeAudioProcessor (α : Type) where
  lowpass_filter : BiquadFilter α
  gain : α
  cutoff_freq : α

namespace RealtimeAudioProcessor

variable {α : Type}

/-- The constant `SAMPLE_RATE`. -/
def SAMPLE_RATE : Nat := 48000

/-- The constructor: `gain{1.0f}`, `cutoff_freq{1000.0f}`, a filter with zero
history, and in the body `lowpass_filter.set_lowpass(SAMPLE_RATE, 1000.0f)` with
the default `q = 0.707f`, which sets all five coefficients. -/
def construct [Field α] (sin cos : α → α) (pi : α) : RealtimeAudioProcessor α :=
  { lowpass_filter :=
      BiquadFilter.set_lowpass sin cos pi ⟨0, 0, 0, 0, 0, 0, 0, 0, 0⟩
        (SAMPLE_RATE : α) 1000 (707 / 1000)
    gain := 1
    cutoff_freq := 1000 }

end RealtimeAudioProcessor

namespace BiquadFilter

variable {α : Type}

/-- The member function `set_highpass(sample_rate, cutoff_hz, q)`; the library's
`std::sin`, `std::cos` and `M_PI` are parameters. -/
def set_highpass [Field α] (sin cos : α → α) (pi : α) (f : BiquadFilter α)
    (sample_rate cutoff_hz q : α) : BiquadFilter α :=
  let omega := 2 * pi * cutoff_hz / sample_rate
  let sin_omega := sin omega
  let cos_omega := cos omega
  let alpha := sin_omega / (2 * q)
  let a0 := 1 + alpha
  let b0 := ((1 + cos_omega) / 2) / a0
  { f with
    b0 := b0
    b1 := -(1 + cos_omega) / a0
    b2 := b0
    a1 := (-2 * cos_omega) / a0
    a2 := (1 - alpha) / a0 }

/-- The member function `reset()`. -/
def reset [Zero α] (f : BiquadFilter α) : BiquadFilter α :=
  { f with x1 := 0, x2 := 0, y1 := 0, y2 := 0 }

end BiquadFilter

/-! ## `SIMD.cpp`: `AudioProcessor` -/

/-- A register `__m256`: eight lanes, lane 0 first in memory. -/
structure M256 (α : Type) where
  e0 : α
  e1 : α
  e2 : α
  e3 : α
  e4 : α
  e5 : α
  e6 : α
  e7 : α
deriving DecidableEq

section Intrinsics256

variable {α : Type}

/-- The intrinsic `_mm256_set1_ps(a)`. -/
def _mm256_set1_ps (a : α) : M256 α := ⟨a, a, a, a, a, a, a, a⟩

/-- The intrinsic `_mm256_mul_ps(a, b)`. -/
def _mm256_mul_ps [Mul α] (a b : M256 α) : M256 α :=
  ⟨a.e0 * b.e0, a.e1 * b.e1, a.e2 * b.e2, a.e3 * b.e3,
   a.e4 * b.e4, a.e5 * b.e5, a.e6 * b.e6, a.e7 * b.e7⟩

/-- The intrinsic `_mm256_loadu_ps(&p[i])`. -/
def _mm256_loadu_ps (p : Nat → α) (i : Nat) : M256 α :=
  ⟨p i, p (i + 1), p (i + 2), p (i + 3), p (i + 4), p (i + 5), p (i + 6), p (i + 7)⟩

/-- The intrinsic `_mm256_storeu_ps(&p[i], v)`. -/
def _mm256_storeu_ps (p : Nat → α) (i : Nat) (v : M256 α) : Nat → α :=
  store (store (store (store (store (store (store (store p i v.e0) (i + 1) v.e1)
    (i + 2) v.e2) (i + 3) v.e3) (i + 4) v.e4) (i + 5) v.e5) (i + 6) v.e6) (i + 7) v.e7

/-- Apply `g` to every lane of a 128-bit register. -/
def M128.map (g : α → α) (v : M128 α) : M128 α := ⟨g v.e0, g v.e1, g v.e2, g v.e3⟩

/-- Apply `g` to every lane of a 256-bit register. -/
def M256.map (g : α → α) (v : M256 α) : M256 α :=
  ⟨g v.e0, g v.e1, g v.e2, g v.e3, g v.e4, g v.e5, g v.e6, g v.e7⟩

end Intrinsics256

namespace AudioProcessor

variable {α : Type}

/-- The loop `for (i = start; i < start + k; ++i) buffer[i] *= gain;` after its `k`
iterations. -/
def gain_scalar_loop [Mul α] (start : Nat) (gain : α) (buffer : Nat → α) : Nat → (Nat → α)
  | 0 => buffer
  | k + 1 =>
    let b := gain_scalar_loop start gain buffer k
    store b (start + k) (b (start + k) * gain)

/-- The static member function `apply_gain_scalar(buffer, samples, gain)`. -/
def apply_gain_scalar [Mul α] (buffer : Nat → α) (samples : Nat) (gain : α) : Nat → α :=
  gain_scalar_loop 0 gain buffer samples

/-- The loop `for (i = 0; i < simd_end; i += 4)` of `apply_gain_sse` after `k`
iterations. -/
def gain_sse_loop [Mul α] (gain_vec : M128 α) (buffer : Nat → α) : Nat → (Nat → α)
  | 0 => buffer
  | k + 1 =>
    let b := gain_sse_loop gain_vec buffer k
    let i := 4 * k
    let data := _mm_loadu_ps b i
    let data := _mm_mul_ps data gain_vec
    _mm_storeu_ps b i data

/-- The static member function `apply_gain_sse(buffer, samples, gain)`. -/
def apply_gain_sse [Mul α] (buffer : Nat → α) (samples : Nat) (gain : α) : Nat → α :=
  let gain_vec := _mm_set1_ps gain
  let simd_end := samples &&& wnot 3
  let b := gain_sse_loop gain_vec buffer ((simd_end + 3) / 4)
  gain_scalar_loop simd_end gain b (samples - simd_end)

/-- The loop `for (i = 0; i < simd_end; i += 8)` of `apply_gain_avx` after `k`
iterations. -/
def gain_avx_loop [Mul α] (gain_vec : M256 α) (buffer : Nat → α) : Nat → (Nat → α)
  | 0 => buffer
  | k + 1 =>
    let b := gain_avx_loop gain_vec buffer k
    let i := 8 * k
    let data := _mm256_loadu_ps b i
    let data := _mm256_mul_ps data gain_vec
    _mm256_storeu_ps b i data

/-- The static member function `apply_gain_avx(buffer, samples, gain)`. -/
def apply_gain_avx [Mul α] (buffer : Nat → α) (samples : Nat) (gain : α) : Nat → α :=
  let gain_vec := _mm256_set1_ps gain
  let simd_end := samples &&& wnot 7
  let b := gain_avx_loop gain_vec buffer ((simd_end + 7) / 8)
  gain_scalar_loop simd_end gain b (samples - simd_end)

end AudioProcessor

/-! ## `simdwaveshaper.cpp`: `WaveShaper` -/

namespace WaveShaper

variable {α : Type}

end WaveShaper

/-! ## Construction-time checks -/

namespace LockFreeRingBuffer

/-- The condition of `static_assert((Size & (Size - 1)) == 0, ...)`: whether the
capacity `Size` is accepted at compile time. -/
def static_assert_Size (Size : Nat) : Bool := (Size &&& wsub Size 1) == 0

end LockFreeRingBuffer

/-- The number `p` is the smallest power of two that is at least `n`. -/
def SmallestPowerOfTwoGe (p n : Nat) : Prop :=
  (∃ k, p = 2 ^ k) ∧ n ≤ p ∧ ∀ q, (∃ k, q = 2 ^ k) → n ≤ q → p ≤ q

namespace ConvolutionProcessor

variable {α : Type}

end ConvolutionProcessor

/-! ## `audioProcessor.cpp`: the audio callback -/

namespace RealtimeAudioProcessor

variable {α : Type}

/-- The constant `BUFFER_SIZE`, the size of the member array `working_buffer`. -/
def BUFFER_SIZE : Nat := 512

end RealtimeAudioProcessor

/-! # Theorems -/

/-! ## Word arithmetic lemmas -/

theorem ValidSize.pos {Size : Nat} (h : ValidSize Size) : 0 < Size := by
  obtain ⟨k, _, rfl⟩ := h
  exact Nat.pos_pow_of_pos k (by decide)

theorem ValidSize.dvd {Size : Nat} (h : ValidSize Size) : Size ∣ WORD := by
  obtain ⟨k, hk, rfl⟩ := h
  exact Nat.pow_dvd_pow 2 (by omega)

theorem ValidSize.lt {Size : Nat} (h : ValidSize Size) : Size < WORD := by
  obtain ⟨k, hk, rfl⟩ := h
  exact Nat.pow_lt_pow_right (by decide) (by omega)

theorem wsub_add_modEq (a b : Nat) : wsub a b + b ≡ a [MOD WORD] := by
  have hW : 0 < WORD := by decide
  have hb : b % WORD < WORD := Nat.mod_lt _ hW
  have h1 : wsub a b ≡ a + (WORD - b % WORD) [MOD WORD] := Nat.mod_modEq _ _
  have h2 : b ≡ b % WORD [MOD WORD] := (Nat.mod_modEq _ _).symm
  have h3 : a + (WORD - b % WORD) + b % WORD = a + WORD := by omega
  have h4 : a + WORD ≡ a [MOD WORD] := by
    simp [Nat.ModEq]
  exact ((h1.add h2).trans (h3 ▸ Nat.ModEq.refl _)).trans h4

theorem wadd_modEq (a b : Nat) : wadd a b ≡ a + b [MOD WORD] := Nat.mod_modEq _ _

theorem wsub_lt (a b : Nat) : wsub a b < WORD := Nat.mod_lt _ (by decide)

theorem mask_eq {Size : Nat} (h : ValidSize Size) :
    LockFreeRingBuffer.mask Size = Size - 1 := by
  have h1 := h.pos
  have h2 : Size < 18446744073709551616 := h.lt
  have hW : WORD = 18446744073709551616 := by decide
  unfold LockFreeRingBuffer.mask wsub
  rw [hW]
  omega

theorem land_mask {Size : Nat} (h : ValidSize Size) (x : Nat) :
    x &&& LockFreeRingBuffer.mask Size = x % Size := by
  rw [mask_eq h]
  obtain ⟨k, _, rfl⟩ := h
  exact Nat.and_pow_two_sub_one_eq_mod x k

theorem eq_of_modEq_zero {S u : Nat} (h : u ≡ 0 [MOD S]) (h1 : 0 < u) (h2 : u < 2 * S) :
    u = S := by
  obtain ⟨c, hc⟩ := (Nat.modEq_zero_iff_dvd.mp h)
  rcases c with _ | _ | c
  · omega
  · omega
  · have : S * (c + 1 + 1) = S * c + 2 * S := by ring
    omega

theorem modEq_size {Size a b : Nat} (h : ValidSize Size) (hab : a ≡ b [MOD WORD]) :
    a ≡ b [MOD Size] := Nat.ModEq.of_dvd h.dvd hab

/-- Free space as `write` computes it, against the occupied count. -/
theorem free_eq {Size : Nat} (h : ValidSize Size) (w r : Nat) :
    wsub (wsub r w) 1 % Size = Size - 1 - wsub w r % Size := by
  have hS := h.pos
  have e1 := modEq_size h (wsub_add_modEq (wsub r w) 1)
  have e2 := modEq_size h (wsub_add_modEq r w)
  have e3 := modEq_size h (wsub_add_modEq w r)
  -- f + 1 + a + (w + r) ≡ w + r
  have e4 : wsub (wsub r w) 1 + 1 + wsub w r + (w + r) ≡ 0 + (w + r) [MOD Size] := by
    have := ((e1.add_right w).trans e2).add e3
    have e5 : wsub (wsub r w) 1 + 1 + w + (wsub w r + r)
        = wsub (wsub r w) 1 + 1 + wsub w r + (w + r) := by ring
    have e6 : r + w = 0 + (w + r) := by ring
    rw [e5, e6] at this
    exact this
  have e7 := Nat.ModEq.add_right_cancel' _ e4
  have e8 : wsub (wsub r w) 1 % Size + 1 + wsub w r % Size ≡ 0 [MOD Size] :=
    (((Nat.mod_modEq _ _).add_right 1).add (Nat.mod_modEq _ _)).trans e7
  have b1 : wsub (wsub r w) 1 % Size < Size := Nat.mod_lt _ hS
  have b2 : wsub w r % Size < Size := Nat.mod_lt _ hS
  have := eq_of_modEq_zero e8 (by omega) (by omega)
  omega

/-- Occupied count after the write cursor advanced by `n` accepted elements. -/
theorem avail_after_write {Size : Nat} (h : ValidSize Size) (w r n : Nat)
    (hn : n ≤ Size - 1 - wsub w r % Size) :
    wsub (wadd w n) r % Size = wsub w r % Size + n := by
  have hS := h.pos
  have e1 := modEq_size h (wsub_add_modEq (wadd w n) r)
  have e2 := modEq_size h (wadd_modEq w n)
  have e3 := modEq_size h (wsub_add_modEq w r)
  have e4 : wsub (wadd w n) r + r ≡ wsub w r % Size + n + r [MOD Size] := by
    have e5 := (e1.trans e2).trans (e3.symm.add_right n)
    have e6 : wsub w r + r + n = wsub w r + n + r := by ring
    rw [e6] at e5
    exact e5.trans ((((Nat.mod_modEq (wsub w r) Size).symm).add_right n).add_right r)
  have e7 := (Nat.mod_modEq _ _).trans (Nat.ModEq.add_right_cancel' _ e4)
  have b2 : wsub w r % Size < Size := Nat.mod_lt _ hS
  exact e7.eq_of_lt_of_lt (Nat.mod_lt _ hS) (by omega)

/-- Occupied count after the read cursor advanced by `n` returned elements. -/
theorem avail_after_read {Size : Nat} (h : ValidSize Size) (w r n : Nat)
    (hn : n ≤ wsub w r % Size) :
    wsub w (wadd r n) % Size = wsub w r % Size - n := by
  have hS := h.pos
  have e1 := modEq_size h (wsub_add_modEq w (wadd r n))
  have e2 := modEq_size h (wadd_modEq r n)
  have e3 := modEq_size h (wsub_add_modEq w r)
  have e4 : wsub w (wadd r n) + (r + n) ≡ (wsub w r % Size - n) + (r + n) [MOD Size] := by
    have e5 := ((Nat.ModEq.refl (wsub w (wadd r n))).add e2).symm.trans e1
    have e6 : wsub w r % Size - n + (r + n) = wsub w r % Size + r := by omega
    rw [e6]
    exact e5.trans (e3.symm.trans ((Nat.mod_modEq (wsub w r) Size).symm.add_right r))
  have e7 := (Nat.mod_modEq _ _).trans (Nat.ModEq.add_right_cancel' _ e4)
  have b2 : wsub w r % Size < Size := Nat.mod_lt _ hS
  exact e7.eq_of_lt_of_lt (Nat.mod_lt _ hS) (by omega)

/-- The occupied count computed from wrapped cursors is the true difference of the
unbounded element counts. -/
theorem avail_of_counts {Size : Nat} (h : ValidSize Size) (W R : Nat) (hle : R ≤ W)
    (hroom : W - R < Size) :
    wsub (W % WORD) (R % WORD) % Size = W - R := by
  have hS := h.pos
  have e1 := modEq_size h (wsub_add_modEq (W % WORD) (R % WORD))
  have e2 := modEq_size h (Nat.mod_modEq W WORD)
  have e3 := modEq_size h (Nat.mod_modEq R WORD)
  have e4 : wsub (W % WORD) (R % WORD) + R ≡ (W - R) + R [MOD Size] := by
    have e5 : W - R + R = W := by omega
    rw [e5]
    exact (((Nat.ModEq.refl _).add e3).symm.trans e1).trans e2
  have e7 := (Nat.mod_modEq _ _).trans (Nat.ModEq.add_right_cancel' _ e4)
  exact e7.eq_of_lt_of_lt (Nat.mod_lt _ hS) hroom

/-! ## The two-segment copies -/

theorem ring_index (S p i : Nat) (hp : p < S) (hi : i < S) :
    (p + i) % S = if p + i < S then p + i else p + i - S := by
  split_ifs with hlt
  · exact Nat.mod_eq_of_lt hlt
  · rw [Nat.mod_eq_sub_mod (by omega)]
    exact Nat.mod_eq_of_lt (by omega)

theorem memcpy_apply {T : Type} (dst : Nat → T) (o : Nat) (src : Nat → T) (so n i : Nat) :
    memcpy dst o src so n i = if o ≤ i ∧ i < o + n then src (so + (i - o)) else dst i := rfl

/-- The tail-then-head store of `write`: element `i` of the source lands in slot
`(p + i) % S`, and no other slot changes. -/
theorem ring_store {T : Type} (S p n : Nat) (buf data : Nat → T) (hp : p < S) (hn : n < S) :
    (∀ i, i < n →
      (if n > min n (S - p)
        then memcpy (memcpy buf p data 0 (min n (S - p))) 0 data (min n (S - p))
          (n - min n (S - p))
        else memcpy buf p data 0 (min n (S - p))) ((p + i) % S) = data i) ∧
    (∀ q, (∀ i, i < n → q ≠ (p + i) % S) →
      (if n > min n (S - p)
        then memcpy (memcpy buf p data 0 (min n (S - p))) 0 data (min n (S - p))
          (n - min n (S - p))
        else memcpy buf p data 0 (min n (S - p))) q = buf q) := by
  constructor
  · intro i hi
    rw [ring_index S p i hp (by omega)]
    split_ifs with h1 h2 h2 <;> simp only [memcpy_apply] <;> split_ifs <;>
      first
        | rfl
        | (exfalso; omega)
        | (congr 1; omega)
  · intro q hq
    have key : ∀ i, i < n → ¬ (q = if p + i < S then p + i else p + i - S) := by
      intro i hi
      rw [← ring_index S p i hp (by omega)]
      exact hq i hi
    split_ifs with h1 <;> simp only [memcpy_apply] <;> split_ifs <;>
      first
        | rfl
        | (exfalso
           have k1 := key (q - p) (by omega)
           rw [if_pos (by omega)] at k1
           omega)
        | (exfalso
           have k2 := key (q + (S - p)) (by omega)
           rw [if_neg (by omega)] at k2
           omega)

/-- The tail-then-head load of `read`: element `i` of the destination comes from
slot `(p + i) % S`, and the destination beyond `n` is untouched. -/
theorem ring_load {T : Type} (S p n : Nat) (buf dest : Nat → T) (hp : p < S) (hn : n < S) :
    (∀ i, i < n →
      (if n > min n (S - p)
        then memcpy (memcpy dest 0 buf p (min n (S - p))) (min n (S - p)) buf 0
          (n - min n (S - p))
        else memcpy dest 0 buf p (min n (S - p))) i = buf ((p + i) % S)) ∧
    (∀ i, n ≤ i →
      (if n > min n (S - p)
        then memcpy (memcpy dest 0 buf p (min n (S - p))) (min n (S - p)) buf 0
          (n - min n (S - p))
        else memcpy dest 0 buf p (min n (S - p))) i = dest i) := by
  constructor
  · intro i hi
    rw [ring_index S p i hp (by omega)]
    split_ifs with h1 h2 h2 <;> simp only [memcpy_apply] <;> split_ifs <;>
      first
        | rfl
        | (exfalso; omega)
        | (congr 1; omega)
  · intro i hi
    split_ifs with h1 <;> simp only [memcpy_apply] <;> split_ifs <;>
      first
        | rfl
        | (exfalso; omega)

/-! ## What one call does, in any state -/

theorem wsub_of_le {a b : Nat} (hb : b ≤ a) (ha : a < WORD) : wsub a b = a - b := by
  have ha2 : a < 18446744073709551616 := ha
  have hW : WORD = 18446744073709551616 := by decide
  unfold wsub
  rw [hW]
  omega

namespace LockFreeRingBuffer

variable {T : Type}

theorem available_lt {Size : Nat} (h : ValidSize Size) (s : LockFreeRingBuffer T) :
    available Size s < Size := by
  unfold available
  rw [land_mask h]
  exact Nat.mod_lt _ h.pos

theorem write_fst {Size : Nat} (h : ValidSize Size) (s : LockFreeRingBuffer T)
    (data : Nat → T) (count : Nat) :
    (write Size s data count).1 = min count (Size - 1 - available Size s) := by
  show min count (wsub (wsub s.read_pos s.write_pos) 1 &&& mask Size) = _
  rw [land_mask h, free_eq h]
  unfold available
  rw [land_mask h]

theorem write_fst_lt {Size : Nat} (h : ValidSize Size) (s : LockFreeRingBuffer T)
    (data : Nat → T) (count : Nat) : (write Size s data count).1 < Size := by
  have := h.pos
  rw [write_fst h]
  omega

theorem write_cursors (Size : Nat) (s : LockFreeRingBuffer T) (data : Nat → T) (count : Nat) :
    (write Size s data count).2.write_pos = wadd s.write_pos (write Size s data count).1 ∧
    (write Size s data count).2.read_pos = s.read_pos := ⟨rfl, rfl⟩

theorem write_buffer {Size : Nat} (h : ValidSize Size) (s : LockFreeRingBuffer T)
    (data : Nat → T) (count : Nat) :
    (∀ i, i < (write Size s data count).1 →
      (write Size s data count).2.buffer ((s.write_pos % Size + i) % Size) = data i) ∧
    (∀ q, (∀ i, i < (write Size s data count).1 → q ≠ (s.write_pos % Size + i) % Size) →
      (write Size s data count).2.buffer q = s.buffer q) := by
  have hp : s.write_pos % Size < Size := Nat.mod_lt _ h.pos
  have hn := write_fst_lt h s data count
  have hsub : wsub Size (s.write_pos % Size) = Size - s.write_pos % Size :=
    wsub_of_le (by omega) h.lt
  have key := ring_store Size (s.write_pos % Size) (write Size s data count).1 s.buffer data hp hn
  simp only [write, land_mask h, hsub] at key ⊢
  exact key

theorem read_fst (Size : Nat) (s : LockFreeRingBuffer T) (dest : Nat → T) (count : Nat) :
    (read Size s dest count).1 = min count (available Size s) := rfl

theorem read_cursors (Size : Nat) (s : LockFreeRingBuffer T) (dest : Nat → T) (count : Nat) :
    (read Size s dest count).2.2.read_pos = wadd s.read_pos (read Size s dest count).1 ∧
    (read Size s dest count).2.2.write_pos = s.write_pos ∧
    (read Size s dest count).2.2.buffer = s.buffer := ⟨rfl, rfl, rfl⟩

theorem read_dest {Size : Nat} (h : ValidSize Size) (s : LockFreeRingBuffer T)
    (dest : Nat → T) (count : Nat) :
    (∀ i, i < (read Size s dest count).1 →
      (read Size s dest count).2.1 i = s.buffer ((s.read_pos % Size + i) % Size)) ∧
    (∀ i, (read Size s dest count).1 ≤ i → (read Size s dest count).2.1 i = dest i) := by
  have hp : s.read_pos % Size < Size := Nat.mod_lt _ h.pos
  have hn : (read Size s dest count).1 < Size := by
    have := available_lt h s
    rw [read_fst Size]
    omega
  have hsub : wsub Size (s.read_pos % Size) = Size - s.read_pos % Size :=
    wsub_of_le (by omega) h.lt
  have key := ring_load Size (s.read_pos % Size) (read Size s dest count).1 s.buffer dest hp hn
  simp only [read, land_mask h, hsub] at key ⊢
  exact key

theorem available_write {Size : Nat} (h : ValidSize Size) (s : LockFreeRingBuffer T)
    (data : Nat → T) (count : Nat) :
    available Size (write Size s data count).2
      = available Size s + (write Size s data count).1 := by
  have h1 := write_fst h s data count
  unfold available at h1 ⊢
  rw [land_mask h] at h1 ⊢
  rw [(write_cursors Size s data count).1, (write_cursors Size s data count).2, land_mask h]
  exact avail_after_write h _ _ _ (by omega)

theorem available_read {Size : Nat} (h : ValidSize Size) (s : LockFreeRingBuffer T)
    (dest : Nat → T) (count : Nat) :
    available Size (read Size s dest count).2.2
      = available Size s - (read Size s dest count).1 := by
  have h1 : (read Size s dest count).1 = min count (available Size s) := rfl
  unfold available at h1 ⊢
  rw [land_mask h] at h1 ⊢
  rw [(read_cursors Size s dest count).1, (read_cursors Size s dest count).2.1, land_mask h]
  exact avail_after_read h _ _ _ (by omega)

end LockFreeRingBuffer

/-! ## The invariant of a run -/

theorem readPtr_length {T : Type} (p : Nat → T) (n : Nat) : (readPtr p n).length = n := by
  simp [readPtr]

theorem readPtr_getElem? {T : Type} (p : Nat → T) (n i : Nat) (hi : i < n) :
    (readPtr p n)[i]? = some (p i) := by
  simp [readPtr, List.getElem?_range hi]

theorem readPtr_congr {T : Type} (p q : Nat → T) (n : Nat) (h : ∀ i, i < n → p i = q i) :
    readPtr p n = readPtr q n := by
  unfold readPtr
  apply List.map_congr_left
  intro i hi
  exact h i (List.mem_range.mp hi)

theorem ring_inj {S R a b : Nat} (ha : a < S) (hb : b < S)
    (h : (R + a) % S = (R + b) % S) : a = b := by
  have h1 : R + a ≡ R + b [MOD S] := h
  exact (Nat.ModEq.add_left_cancel' R h1).eq_of_lt_of_lt ha hb

namespace LockFreeRingBuffer

variable {T : Type}

theorem Inv.available_eq {Size : Nat} (h : ValidSize Size) {t : Trace T} (inv : Inv Size t) :
    available Size t.state = t.written.length - t.readOut.length := by
  unfold available
  rw [land_mask h, inv.wpos, inv.rpos]
  exact avail_of_counts h _ _ inv.le inv.room

theorem Inv.wslot {Size : Nat} (h : ValidSize Size) {t : Trace T} (inv : Inv Size t) (i : Nat) :
    (t.state.write_pos % Size + i) % Size = (t.written.length + i) % Size := by
  rw [inv.wpos, Nat.mod_mod_of_dvd _ h.dvd, Nat.mod_add_mod]

theorem Inv.rslot {Size : Nat} (h : ValidSize Size) {t : Trace T} (inv : Inv Size t) (i : Nat) :
    (t.state.read_pos % Size + i) % Size = (t.readOut.length + i) % Size := by
  rw [inv.rpos, Nat.mod_mod_of_dvd _ h.dvd, Nat.mod_add_mod]

theorem inv_fresh {Size : Nat} (h : ValidSize Size) (init : Nat → T) :
    Inv Size { state := fresh init, written := [], readOut := [] } where
  wpos := rfl
  rpos := rfl
  le := le_refl _
  room := h.pos
  out := rfl
  live := by
    intro i hi
    simp at hi

theorem inv_write {Size : Nat} (h : ValidSize Size) {t : Trace T} (inv : Inv Size t)
    (data : Nat → T) (count : Nat) : Inv Size (step Size t (Op.write data count)) := by
  have hav := inv.available_eq h
  have hn := write_fst h t.state data count
  have hle := inv.le
  have hroom := inv.room
  have hbuf := write_buffer h t.state data count
  rw [hav] at hn
  generalize hres : write Size t.state data count = res at hn hbuf
  have hstate : (step Size t (Op.write data count)).state = res.2 := by
    simp only [step, hres]
  have hwritten : (step Size t (Op.write data count)).written
      = t.written ++ readPtr data res.1 := by
    simp only [step, hres]
  have hout : (step Size t (Op.write data count)).readOut = t.readOut := rfl
  have hcur := write_cursors Size t.state data count
  rw [hres] at hcur
  constructor
  · rw [hstate, hwritten, hcur.1, inv.wpos, List.length_append, readPtr_length]
    unfold wadd
    rw [Nat.mod_add_mod]
  · rw [hstate, hout, hcur.2, inv.rpos]
  · rw [hwritten, hout, List.length_append]
    omega
  · rw [hwritten, hout, List.length_append, readPtr_length]
    omega
  · rw [hwritten, hout, List.take_append_of_le_length hle]
    exact inv.out
  · intro i hi
    rw [hwritten, hout, List.length_append, readPtr_length] at hi
    rw [hstate, hwritten, hout]
    by_cases hlt : i < t.written.length - t.readOut.length
    · rw [List.getElem?_append_left (by omega), inv.live i hlt]
      congr 1
      symm
      apply hbuf.2
      intro j hj hEq
      rw [inv.wslot h] at hEq
      have e1 : t.written.length + j
          = t.readOut.length + (t.written.length - t.readOut.length + j) := by omega
      rw [e1] at hEq
      have := ring_inj (by omega) (by omega) hEq
      omega
    · rw [List.getElem?_append_right (by omega),
        readPtr_getElem? _ _ _ (by omega)]
      have e1 : t.readOut.length + i
          = t.written.length + (t.readOut.length + i - t.written.length) := by omega
      have := hbuf.1 (t.readOut.length + i - t.written.length) (by omega)
      rw [inv.wslot h, ← e1] at this
      rw [this]

theorem inv_read {Size : Nat} (h : ValidSize Size) {t : Trace T} (inv : Inv Size t)
    (dest : Nat → T) (count : Nat) : Inv Size (step Size t (Op.read dest count)) := by
  have hav := inv.available_eq h
  have hn := read_fst Size t.state dest count
  have hle := inv.le
  have hroom := inv.room
  have hdst := (read_dest h t.state dest count).1
  have hcur := read_cursors Size t.state dest count
  rw [hav] at hn
  generalize hres : read Size t.state dest count = res at hn hdst hcur
  have hstate : (step Size t (Op.read dest count)).state = res.2.2 := by
    simp only [step, hres]
  have hwritten : (step Size t (Op.read dest count)).written = t.written := rfl
  have hout : (step Size t (Op.read dest count)).readOut
      = t.readOut ++ readPtr res.2.1 res.1 := by
    simp only [step, hres]
  have hnew : readPtr res.2.1 res.1 = (t.written.drop t.readOut.length).take res.1 := by
    apply List.ext_getElem?
    intro i
    rw [List.getElem?_take, List.getElem?_drop]
    by_cases hi : i < res.1
    · rw [if_pos hi, readPtr_getElem? _ _ _ hi, hdst i hi, inv.rslot h,
        inv.live i (by omega)]
    · rw [if_neg hi]
      exact List.getElem?_eq_none (by rw [readPtr_length]; omega)
  constructor
  · rw [hstate, hwritten, hcur.2.1, inv.wpos]
  · rw [hstate, hout, hcur.1, inv.rpos, List.length_append, readPtr_length]
    unfold wadd
    rw [Nat.mod_add_mod]
  · rw [hwritten, hout, List.length_append, readPtr_length]
    omega
  · rw [hwritten, hout, List.length_append, readPtr_length]
    omega
  · rw [hwritten, hout, List.length_append, readPtr_length, List.take_add, ← inv.out, hnew]
  · intro i hi
    rw [hwritten, hout, List.length_append, readPtr_length] at hi
    rw [hstate, hwritten, hout, List.length_append, readPtr_length, hcur.2.2]
    have := inv.live (res.1 + i) (by omega)
    rw [← Nat.add_assoc] at this
    exact this

theorem inv_step {Size : Nat} (h : ValidSize Size) {t : Trace T} (inv : Inv Size t)
    (op : Op T) : Inv Size (step Size t op) := by
  cases op with
  | write data count => exact inv_write h inv data count
  | read dest count => exact inv_read h inv dest count

theorem inv_foldl {Size : Nat} (h : ValidSize Size) (ops : List (Op T)) (t : Trace T)
    (inv : Inv Size t) : Inv Size (ops.foldl (step Size) t) := by
  induction ops generalizing t with
  | nil => exact inv
  | cons op ops ih => exact ih _ (inv_step h inv op)

theorem inv_run {Size : Nat} (h : ValidSize Size) (init : Nat → T) (ops : List (Op T)) :
    Inv Size (run Size init ops) := inv_foldl h ops _ (inv_fresh h init)

end LockFreeRingBuffer

/-- Free space as the mathematical residue `(read_pos - write_pos - 1) mod Size`. -/
theorem free_as_int {Size : Nat} (h : ValidSize Size) (w r : Nat) :
    ((r : Int) - w - 1) % (Size : Int) = ((Size - 1 - wsub w r % Size : Nat) : Int) := by
  have hS := h.pos
  have b2 : wsub w r % Size < Size := Nat.mod_lt _ hS
  have e3 : wsub w r % Size + r ≡ w [MOD Size] :=
    ((Nat.mod_modEq _ _).add_right r).trans (modEq_size h (wsub_add_modEq w r))
  obtain ⟨k, hk⟩ := (Nat.modEq_iff_dvd.mp e3)
  have e4 : (r : Int) - w - 1
      = ((Size - 1 - wsub w r % Size : Nat) : Int) + (Size : Int) * (-k - 1) := by
    push_cast [Nat.sub_sub, Nat.cast_sub (show 1 + wsub w r % Size ≤ Size by omega)] at hk ⊢
    linear_combination (-1 : Int) * hk
  rw [e4, Int.add_mul_emod_self_left]
  exact Int.emod_eq_of_lt (by positivity) (by omega)

namespace LockFreeRingBuffer

variable {T : Type}

theorem readPtr_ptrOf (d : T) (xs : List T) (n : Nat) (hn : n ≤ xs.length) :
    readPtr (ptrOf d xs) n = xs.take n := by
  apply List.ext_getElem?
  intro i
  rw [List.getElem?_take]
  by_cases hi : i < n
  · rw [if_pos hi, readPtr_getElem? _ _ _ hi]
    have hlt : i < xs.length := by omega
    simp [ptrOf, List.getD_eq_getElem?_getD, List.getElem?_eq_getElem hlt]
  · rw [if_neg hi]
    exact List.getElem?_eq_none (by rw [readPtr_length]; omega)

end LockFreeRingBuffer

/-! ## Ring channel: the claims -/

namespace LockFreeRingBuffer

variable {T : Type}

/-- C1: for every sequence of `write` and `read` calls run one after another on a
freshly constructed buffer of power-of-two capacity, the concatenation of the
elements returned by the reads is a prefix of the concatenation of the elements
accepted by the writes, and the number read never exceeds the number written. -/
theorem ring_fifo_prefix (Size : Nat) (hS : ValidSize Size) (init : Nat → T)
    (ops : List (Op T)) :
    (run Size init ops).readOut <+: (run Size init ops).written ∧
    (run Size init ops).readOut.length ≤ (run Size init ops).written.length := by
  have inv := inv_run hS init ops
  refine ⟨?_, inv.le⟩
  rw [inv.out]
  exact List.take_prefix _ _

/-- C1, at capacity 4: five elements offered, three accepted; two read; two more
accepted across the end of the array; the rest read. -/
theorem ring_fifo_prefix_witness :
    ValidSize 4 ∧
    (run 4 (fun _ => 0)
      [Op.write (ptrOf 0 [1, 2, 3, 4, 5]) 5, Op.read (fun _ => 0) 2,
       Op.write (ptrOf 0 [6, 7]) 2, Op.read (fun _ => 0) 5]).readOut = [1, 2, 3, 6, 7] ∧
    ((run 4 (fun _ => 0)
      [Op.write (ptrOf 0 [1, 2, 3, 4, 5]) 5, Op.read (fun _ => 0) 2,
       Op.write (ptrOf 0 [6, 7]) 2, Op.read (fun _ => 0) 5]).readOut <+:
     (run 4 (fun _ => 0)
      [Op.write (ptrOf 0 [1, 2, 3, 4, 5]) 5, Op.read (fun _ => 0) 2,
       Op.write (ptrOf 0 [6, 7]) 2, Op.read (fun _ => 0) 5]).written ∧
     (run 4 (fun _ => 0)
      [Op.write (ptrOf 0 [1, 2, 3, 4, 5]) 5, Op.read (fun _ => 0) 2,
       Op.write (ptrOf 0 [6, 7]) 2, Op.read (fun _ => 0) 5]).readOut.length ≤
     (run 4 (fun _ => 0)
      [Op.write (ptrOf 0 [1, 2, 3, 4, 5]) 5, Op.read (fun _ => 0) 2,
       Op.write (ptrOf 0 [6, 7]) 2, Op.read (fun _ => 0) 5]).written.length) :=
  ⟨by decide, by decide, ring_fifo_prefix 4 (by decide) _ _⟩

/-- C2: in every state reached from a fresh buffer of power-of-two capacity `Size`,
and for every requested count, `write` returns `min(count, (read_pos - write_pos - 1)
mod Size)`, which is `min(count, Size - 1 - available())`; `read` returns
`min(count, available())`; `available()` then has grown (write) or shrunk (read) by
the returned number; `write` leaves `read_pos` and `read` leaves `write_pos`
unchanged. -/
theorem ring_transfer_counts (Size : Nat) (hS : ValidSize Size) (init : Nat → T)
    (ops : List (Op T)) (data dest : Nat → T) (count : Nat) :
    (((write Size (run Size init ops).state data count).1 : Int)
      = min (count : Int)
          ((((run Size init ops).state.read_pos : Int)
            - (run Size init ops).state.write_pos - 1) % (Size : Int))) ∧
    (write Size (run Size init ops).state data count).1
      = min count (Size - 1 - available Size (run Size init ops).state) ∧
    (read Size (run Size init ops).state dest count).1
      = min count (available Size (run Size init ops).state) ∧
    available Size (write Size (run Size init ops).state data count).2
      = available Size (run Size init ops).state
        + (write Size (run Size init ops).state data count).1 ∧
    available Size (read Size (run Size init ops).state dest count).2.2
        + (read Size (run Size init ops).state dest count).1
      = available Size (run Size init ops).state ∧
    (write Size (run Size init ops).state data count).2.read_pos
      = (run Size init ops).state.read_pos ∧
    (read Size (run Size init ops).state dest count).2.2.write_pos
      = (run Size init ops).state.write_pos := by
  generalize (run Size init ops).state = s
  refine ⟨?_, write_fst hS s data count, rfl, available_write hS s data count, ?_, rfl, rfl⟩
  · rw [free_as_int hS, write_fst hS]
    unfold available
    rw [land_mask hS]
    push_cast
    rfl
  · have h1 := available_read hS s dest count
    have h2 := read_fst Size s dest count
    omega

/-- C2, at capacity 4 after three elements were accepted and one was read. -/
theorem ring_transfer_counts_witness :
    ValidSize 4 ∧
    (write 4 (run 4 (fun _ => 0)
      [Op.write (ptrOf 0 [1, 2, 3]) 3, Op.read (fun _ => 0) 1]).state (ptrOf 0 [8, 9]) 2).1
      = min 2 (4 - 1 - available 4 (run 4 (fun _ => 0)
          [Op.write (ptrOf 0 [1, 2, 3]) 3, Op.read (fun _ => 0) 1]).state) ∧
    (write 4 (run 4 (fun _ => 0)
      [Op.write (ptrOf 0 [1, 2, 3]) 3, Op.read (fun _ => 0) 1]).state (ptrOf 0 [8, 9]) 2).1
      = 1 :=
  ⟨by decide,
   (ring_transfer_counts 4 (by decide) (fun _ => 0)
      [Op.write (ptrOf 0 [1, 2, 3]) 3, Op.read (fun _ => 0) 1]
      (ptrOf 0 [8, 9]) (fun _ => 0) 2).2.1,
   by decide⟩

/-- C3: in every state reached from a fresh buffer of power-of-two capacity `Size`,
`available()` is at most `Size - 1` and is the number of elements accepted by writes
minus the number returned by reads, the cursors being those two counts reduced
modulo `2 ^ 64` (so also after a cursor has wrapped). -/
theorem ring_available_bound (Size : Nat) (hS : ValidSize Size) (init : Nat → T)
    (ops : List (Op T)) :
    available Size (run Size init ops).state ≤ Size - 1 ∧
    available Size (run Size init ops).state
      = (run Size init ops).written.length - (run Size init ops).readOut.length ∧
    (run Size init ops).readOut.length ≤ (run Size init ops).written.length ∧
    (run Size init ops).state.write_pos = (run Size init ops).written.length % 2 ^ 64 ∧
    (run Size init ops).state.read_pos = (run Size init ops).readOut.length % 2 ^ 64 := by
  have inv := inv_run hS init ops
  have h1 := available_lt hS (run Size init ops).state
  exact ⟨by omega, inv.available_eq hS, inv.le, inv.wpos, inv.rpos⟩

/-- C3, at capacity 4 after three elements were accepted and one was read. -/
theorem ring_available_bound_witness :
    ValidSize 4 ∧
    available 4 (run 4 (fun _ => 0)
      [Op.write (ptrOf 0 [1, 2, 3, 4, 5]) 5, Op.read (fun _ => 0) 1]).state = 2 ∧
    available 4 (run 4 (fun _ => 0)
      [Op.write (ptrOf 0 [1, 2, 3, 4, 5]) 5, Op.read (fun _ => 0) 1]).state ≤ 4 - 1 :=
  ⟨by decide, by decide,
   (ring_available_bound 4 (by decide) (fun _ => 0)
      [Op.write (ptrOf 0 [1, 2, 3, 4, 5]) 5, Op.read (fun _ => 0) 1]).1⟩

/-- C4: for every power-of-two capacity `Size` and every list `xs`, writing `xs`
into a fresh buffer returns `min(xs.length, Size - 1)`; a following read asking for
`xs.length` elements returns the same number, delivers exactly the first
`min(xs.length, Size - 1)` elements of `xs` in order, and leaves the buffer empty. -/
theorem ring_write_then_read (Size : Nat) (hS : ValidSize Size) (init dest : Nat → T)
    (d : T) (xs : List T) :
    (write Size (fresh init) (ptrOf d xs) xs.length).1 = min xs.length (Size - 1) ∧
    (read Size (write Size (fresh init) (ptrOf d xs) xs.length).2 dest xs.length).1
      = min xs.length (Size - 1) ∧
    readPtr (read Size (write Size (fresh init) (ptrOf d xs) xs.length).2 dest xs.length).2.1
        (read Size (write Size (fresh init) (ptrOf d xs) xs.length).2 dest xs.length).1
      = xs.take (min xs.length (Size - 1)) ∧
    available Size
      (read Size (write Size (fresh init) (ptrOf d xs) xs.length).2 dest xs.length).2.2
      = 0 := by
  have inv1 := inv_run hS init [Op.write (ptrOf d xs) xs.length]
  have inv2 := inv_run hS init [Op.write (ptrOf d xs) xs.length, Op.read dest xs.length]
  have a0 : available Size (fresh init) = 0 := by
    have := (inv_fresh hS init).available_eq hS
    simpa using this
  have hw : (write Size (fresh init) (ptrOf d xs) xs.length).1 = min xs.length (Size - 1) := by
    rw [write_fst hS, a0]
    rfl
  have a1 := available_write hS (fresh init) (ptrOf d xs) xs.length
  rw [a0, hw, Nat.zero_add] at a1
  have hr : (read Size (write Size (fresh init) (ptrOf d xs) xs.length).2 dest xs.length).1
      = min xs.length (Size - 1) := by
    rw [read_fst Size, a1]
    omega
  have a2 := available_read hS (write Size (fresh init) (ptrOf d xs) xs.length).2 dest xs.length
  rw [a1, hr] at a2
  refine ⟨hw, hr, ?_, by omega⟩
  have hout := inv2.out
  simp only [run, List.foldl_cons, List.foldl_nil, step, List.nil_append, List.length_append,
    readPtr_length, List.length_nil, Nat.zero_add] at hout
  rw [hout, hr, hw, readPtr_ptrOf d xs _ (Nat.min_le_left _ _)]
  rw [List.take_take]
  simp

/-- C4, the example of the specification: capacity 4, `[1,2,3,4,5]` offered, three
accepted, then `[1,2,3]` read. -/
theorem ring_write_then_read_witness :
    ValidSize 4 ∧
    (write 4 (fresh (fun _ => 0)) (ptrOf 0 [1, 2, 3, 4, 5]) 5).1 = 3 ∧
    readPtr (read 4 (write 4 (fresh (fun _ => 0)) (ptrOf 0 [1, 2, 3, 4, 5])
        [1, 2, 3, 4, 5].length).2 (fun _ => 0) [1, 2, 3, 4, 5].length).2.1
      (read 4 (write 4 (fresh (fun _ => 0)) (ptrOf 0 [1, 2, 3, 4, 5])
        [1, 2, 3, 4, 5].length).2 (fun _ => 0) [1, 2, 3, 4, 5].length).1
      = [1, 2, 3] :=
  ⟨by decide, by decide,
   (ring_write_then_read 4 (by decide) (fun _ => 0) (fun _ => 0) 0
      [1, 2, 3, 4, 5]).2.2.1⟩

end LockFreeRingBuffer

/-! ## Biquad filter -/

namespace BiquadFilter

variable {α : Type}

theorem store_same {T : Type} (p : Nat → T) (i : Nat) (v : T) : store p i v i = v := by
  simp [store]

theorem store_other {T : Type} (p : Nat → T) (i j : Nat) (v : T) (h : j ≠ i) :
    store p i v j = p j := by
  simp [store, h]

theorem scalar_loop_succ [Add α] [Sub α] [Mul α] (start : Nat) (f : BiquadFilter α)
    (buffer : Nat → α) (k : Nat) :
    scalar_loop start f buffer (k + 1)
      = ((process (scalar_loop start f buffer k).1
            ((scalar_loop start f buffer k).2 (start + k))).2,
         store (scalar_loop start f buffer k).2 (start + k)
           (process (scalar_loop start f buffer k).1
             ((scalar_loop start f buffer k).2 (start + k))).1) := rfl

/-- The loop touches only the indices it runs over. -/
theorem scalar_loop_frame [Add α] [Sub α] [Mul α] (start : Nat) (f : BiquadFilter α)
    (buffer : Nat → α) (k j : Nat) (hj : j < start ∨ start + k ≤ j) :
    (scalar_loop start f buffer k).2 j = buffer j := by
  induction k with
  | zero => rfl
  | succ k ih =>
    rw [scalar_loop_succ]
    show store _ _ _ j = _
    rw [store_other _ _ _ _ (by omega)]
    exact ih (by omega)

/-- The state after `k` iterations of `process_buffer`, as the difference equation. -/
theorem scalar_loop_recurrence [Add α] [Sub α] [Mul α] (f : BiquadFilter α)
    (buffer : Nat → α) (k : Nat) :
    (scalar_loop 0 f buffer k).1 =
      { f with
        x1 := recurrence_x f buffer (k + 1)
        x2 := recurrence_x f buffer k
        y1 := recurrence_y f buffer (k + 1)
        y2 := recurrence_y f buffer k } ∧
    (∀ i, i < k → (scalar_loop 0 f buffer k).2 i = recurrence_y f buffer (i + 2)) := by
  induction k with
  | zero =>
    exact ⟨rfl, fun i hi => absurd hi (Nat.not_lt_zero i)⟩
  | succ k ih =>
    have hin : (scalar_loop 0 f buffer k).2 (0 + k) = buffer k := by
      rw [Nat.zero_add]
      exact scalar_loop_frame 0 f buffer k k (Or.inr (by omega))
    rw [scalar_loop_succ, hin, ih.1]
    constructor
    · rfl
    · intro i hi
      show store _ _ _ i = _
      by_cases hik : i = k
      · subst hik
        rw [Nat.zero_add, store_same]
        rfl
      · rw [Nat.zero_add, store_other _ _ _ _ hik]
        exact ih.2 i (by omega)

/-- Running the loop from `start` is running it from `0` on the pointer advanced by
`start`. -/
theorem scalar_loop_shift [Add α] [Sub α] [Mul α] (start : Nat) (f : BiquadFilter α)
    (buffer : Nat → α) (k : Nat) :
    (scalar_loop start f buffer k).1 = (scalar_loop 0 f (fun i => buffer (start + i)) k).1 ∧
    (∀ i, (scalar_loop start f buffer k).2 (start + i)
      = (scalar_loop 0 f (fun i => buffer (start + i)) k).2 i) := by
  induction k with
  | zero => exact ⟨rfl, fun _ => rfl⟩
  | succ k ih =>
    rw [scalar_loop_succ, scalar_loop_succ, ih.1, ih.2 k, Nat.zero_add]
    refine ⟨rfl, ?_⟩
    intro i
    show store _ _ _ _ = store _ _ _ _
    by_cases hik : i = k
    · subst hik
      rw [store_same, store_same]
    · rw [store_other _ _ _ _ (by omega), store_other _ _ _ _ hik]
      exact ih.2 i

/-- Running `m + k` iterations is running `m` and then `k` more from index `m`. -/
theorem scalar_loop_add [Add α] [Sub α] [Mul α] (f : BiquadFilter α) (buffer : Nat → α)
    (m k : Nat) :
    scalar_loop 0 f buffer (m + k)
      = scalar_loop m (scalar_loop 0 f buffer m).1 (scalar_loop 0 f buffer m).2 k := by
  induction k with
  | zero => rfl
  | succ k ih =>
    rw [← Nat.add_assoc, scalar_loop_succ, scalar_loop_succ, ih, Nat.zero_add]

/-- C10: `process_buffer` overwrites the buffer with the outputs of the difference
equation `y[i] = b0*x[i] + b1*x[i-1] + b2*x[i-2] - a1*y[i-1] - a2*y[i-2]`, the
history before the call standing for the indices `-1` and `-2`; it touches nothing
beyond `samples`; afterwards the history is `x[n-1], x[n-2], y[n-1], y[n-2]` and the
coefficients are as before; and processing `m + k` samples in one call gives the
same filter state and buffer as processing `m` and then the next `k`. No law of
arithmetic is used, so this holds for any interpretation of `+`, `-` and `*`. -/
theorem process_buffer_recurrence [Add α] [Sub α] [Mul α] (f : BiquadFilter α)
    (buffer : Nat → α) (n : Nat) :
    (∀ i, i < n → (process_buffer f buffer n).2 i = recurrence_y f buffer (i + 2)) ∧
    (∀ i, n ≤ i → (process_buffer f buffer n).2 i = buffer i) ∧
    (process_buffer f buffer n).1 =
      { f with
        x1 := recurrence_x f buffer (n + 1)
        x2 := recurrence_x f buffer n
        y1 := recurrence_y f buffer (n + 1)
        y2 := recurrence_y f buffer n } ∧
    (∀ m k, m + k = n →
      (process_buffer f buffer n).1
        = (process_buffer (process_buffer f buffer m).1
            (fun i => (process_buffer f buffer m).2 (m + i)) k).1 ∧
      (∀ j, j < m → (process_buffer f buffer n).2 j = (process_buffer f buffer m).2 j) ∧
      (∀ j, (process_buffer f buffer n).2 (m + j)
        = (process_buffer (process_buffer f buffer m).1
            (fun i => (process_buffer f buffer m).2 (m + i)) k).2 j)) := by
  refine ⟨(scalar_loop_recurrence f buffer n).2, ?_, (scalar_loop_recurrence f buffer n).1, ?_⟩
  · intro i hi
    exact scalar_loop_frame 0 f buffer n i (Or.inr (by omega))
  · intro m k hmk
    subst hmk
    unfold process_buffer
    rw [scalar_loop_add]
    have hs := scalar_loop_shift m (scalar_loop 0 f buffer m).1 (scalar_loop 0 f buffer m).2 k
    refine ⟨hs.1, ?_, hs.2⟩
    intro j hj
    exact scalar_loop_frame m _ _ k j (Or.inl hj)

/-- C5, evaluated: with `b0 = b1 = 1` and the other coefficients and the history
zero, on the buffer `[1, 1, 1, 1]` the scalar `process_buffer` writes `[1, 2, 2, 2]`
and leaves the history `x1 = x2 = 1`, `y1 = y2 = 2`, while `process_buffer_sse`
writes `[1, 1, 1, 1]` and leaves the four history cells at zero. -/
theorem process_buffer_sse_diverges :
    readPtr (process_buffer (⟨1, 1, 0, 0, 0, 0, 0, 0, 0⟩ : BiquadFilter ℚ)
      (ptrOf 0 [1, 1, 1, 1]) 4).2 4 = [1, 2, 2, 2] ∧
    readPtr (process_buffer_sse (⟨1, 1, 0, 0, 0, 0, 0, 0, 0⟩ : BiquadFilter ℚ)
      (ptrOf 0 [1, 1, 1, 1]) 4).2 4 = [1, 1, 1, 1] ∧
    (process_buffer (⟨1, 1, 0, 0, 0, 0, 0, 0, 0⟩ : BiquadFilter ℚ)
      (ptrOf 0 [1, 1, 1, 1]) 4).1 = ⟨1, 1, 0, 0, 0, 1, 1, 2, 2⟩ ∧
    (process_buffer_sse (⟨1, 1, 0, 0, 0, 0, 0, 0, 0⟩ : BiquadFilter ℚ)
      (ptrOf 0 [1, 1, 1, 1]) 4).1 = ⟨1, 1, 0, 0, 0, 0, 0, 0, 0⟩ := by
  refine ⟨?_, ?_, ?_, ?_⟩ <;>
    norm_num [process_buffer, process_buffer_sse, sse_loop, scalar_loop, process, readPtr,
      ptrOf, _mm_loadu_ps, _mm_storeu_ps, _mm_set1_ps, _mm_mul_ps, _mm_add_ps,
      _mm_setzero_ps, store, wnot, WORD, List.range_succ]

end BiquadFilter

namespace BiquadFilter

end BiquadFilter

/-! ## Convolution engine -/

theorem Cplx.mul_def {α : Type} [Add α] [Sub α] [Mul α] (a b : Cplx α) :
    a * b = ⟨a.re * b.re - a.im * b.im, a.re * b.im + a.im * b.re⟩ := rfl

theorem Cplx.zero_def {α : Type} [Zero α] : (0 : Cplx α) = ⟨0, 0⟩ := rfl

namespace ConvolutionProcessor

/-- The pair `dft4`, `idft4` is an exact transform pair at size 4 over the rationals. -/
theorem dft4_exact : ExactTransformPair (dft4 (α := ℚ)) idft4 4 := by
  intro a b o1 o2 res ha hb
  match a, ha, b, hb with
  | [a0, a1, a2, a3], _, [b0, b1, b2, b3], _ =>
    simp only [dft4, idft4, circular_convolution, List.range_succ, List.range_zero,
      List.nil_append, List.cons_append, List.map_cons, List.map_nil, List.length_cons,
      List.length_nil, List.getD_cons_zero, List.getD_cons_succ, Cplx.mul_def,
      List.sum_cons, List.sum_nil, List.cons.injEq, and_true]
    norm_num
    refine ⟨?_, ?_, ?_, ?_⟩ <;> ring

/-- C6, evaluated: with the impulse response `[1, 0, 1]` (length 3), block size 1,
the transform size 4 the constructor computes when `ir_length` reads as 3, and the
exact pair `dft4`, `idft4`, the blocks `[1]`, `[0]`, `[0]` come out as `[1]`, `[0]`,
`[0]`, while the direct linear convolution of `[1, 0, 1]` with `[1, 0, 0]` is
`[1, 0, 1]`: the part of the first block's tail that reaches the third block is
lost. With block size 2 (so that the tail ends within the next block) the same
samples come out as `[1, 0]`, `[1, 0]`, which is the direct convolution. -/
theorem overlap_tail_lost :
    ExactTransformPair (dft4 (α := ℚ)) idft4 4 ∧
    (construct_with dft4 ([1, 0, 1] : List ℚ) 1 3).fft_size = 4 ∧
    (process_blocks dft4 idft4 (construct_with dft4 ([1, 0, 1] : List ℚ) 1 3)
      [[1], [0], [0]]).1 = [[1], [0], [0]] ∧
    (List.range 3).map (direct_convolution ([1, 0, 1] : List ℚ) [1, 0, 0]) = [1, 0, 1] ∧
    (construct_with dft4 ([1, 0, 1] : List ℚ) 2 3).fft_size = 4 ∧
    (process_blocks dft4 idft4 (construct_with dft4 ([1, 0, 1] : List ℚ) 2 3)
      [[1, 0], [0, 0]]).1 = [[1, 0], [1, 0]] ∧
    (List.range 4).map (direct_convolution ([1, 0, 1] : List ℚ) [1, 0, 0, 0])
      = [1, 0, 1, 0] := by
  refine ⟨dft4_exact, by decide, ?_, ?_, by decide, ?_, ?_⟩
  · norm_num [process_blocks, process_with, construct_with, dft4, idft4, std_copy,
      std_fill_from, next_power_of_2, wsub, wadd, WORD, List.range_succ, Cplx.mul_def,
      Cplx.zero_def]
  · norm_num [direct_convolution, List.range_succ]
  · norm_num [process_blocks, process_with, construct_with, dft4, idft4, std_copy,
      std_fill_from, next_power_of_2, wsub, wadd, WORD, List.range_succ, Cplx.mul_def,
      Cplx.zero_def]
  · norm_num [direct_convolution, List.range_succ]

/-- C7 as stated fails on the source: with its own empty `compute_fft` and
`compute_ifft`, the processor built from the impulse response `[1]` with block size
1 answers the block `[5]` with `[0]`. -/
theorem process_identity_ir_placeholder :
    (process (construct ([1] : List ℚ) 1 1) [5]).1 = [0] ∧
    (process (construct ([1] : List ℚ) 1 1) [5]).1 ≠ [5] := by
  constructor <;>
    norm_num [process, construct, process_with, construct_with, compute_fft, compute_ifft,
      std_copy, std_fill_from, next_power_of_2, wsub, wadd, WORD, List.range_succ]

end ConvolutionProcessor

namespace ConvolutionProcessor

variable {α : Type}

theorem getD_replicate_zero [Zero α] (n j : Nat) :
    (List.replicate n (0 : α)).getD j 0 = 0 := by
  rw [List.getD_eq_getElem?_getD]
  by_cases h : j < n
  · simp [List.getElem?_replicate, h]
  · simp [List.getElem?_replicate, h]

theorem sum_range_eq_zero [AddMonoid α] (f : Nat → α) (F : Nat)
    (h0 : ∀ k, k < F → f k = 0) : ((List.range F).map f).sum = 0 := by
  induction F with
  | zero => rfl
  | succ F ih =>
    rw [List.range_succ, List.map_append, List.sum_append, ih (fun k hk => h0 k (by omega))]
    simp [h0 F (by omega)]

theorem sum_range_single [AddMonoid α] (f : Nat → α) (F n : Nat) (hn : n < F)
    (h0 : ∀ k, k < F → k ≠ n → f k = 0) : ((List.range F).map f).sum = f n := by
  induction F with
  | zero => omega
  | succ F ih =>
    rw [List.range_succ, List.map_append, List.sum_append]
    by_cases hnF : n = F
    · subst hnF
      rw [sum_range_eq_zero f n (fun k hk => h0 k (by omega) (by omega))]
      simp
    · rw [ih (by omega) (fun k hk hkn => h0 k (by omega) hkn)]
      simp [h0 F (by omega) (fun h => hnF h.symm)]

theorem map_getD_range [Zero α] (l : List α) :
    (List.range l.length).map (fun i => l.getD i 0) = l := by
  apply List.ext_getElem?
  intro i
  by_cases hi : i < l.length
  · simp [List.getElem?_range hi, List.getD_eq_getElem?_getD, List.getElem?_eq_getElem hi]
  · rw [List.getElem?_eq_none (by simpa using hi), List.getElem?_eq_none (by omega)]

/-- Circular convolution with the unit impulse `[1, 0, ..., 0]` returns the sequence. -/
theorem circular_convolution_delta [Ring α] (a : List α) (F : Nat) (ha : a.length = F) :
    circular_convolution a (std_copy [1] (List.replicate F 0)) F = a := by
  have hδ0 : (std_copy [(1 : α)] (List.replicate F 0)).getD 0 0 = 1 := rfl
  have hδ : ∀ j, j ≠ 0 → (std_copy [(1 : α)] (List.replicate F 0)).getD j 0 = 0 := by
    intro j hj
    obtain ⟨j, rfl⟩ := Nat.exists_eq_succ_of_ne_zero hj
    show (List.drop 1 (List.replicate F (0 : α))).getD j 0 = 0
    rw [List.drop_replicate]
    exact getD_replicate_zero _ _
  unfold circular_convolution
  conv_rhs => rw [← map_getD_range a, ha]
  apply List.map_congr_left
  intro n hn
  have hnF : n < F := List.mem_range.mp hn
  rw [sum_range_single _ F n hnF]
  · have : (n + F - n) % F = 0 := by
      rw [Nat.add_sub_cancel_left]
      exact Nat.mod_self F
    rw [this, hδ0, mul_one]
  · intro k hk hkn
    have hne : (n + F - k) % F ≠ 0 := by
      by_cases hlt : k < n
      · have e : n + F - k = (n - k) + F := by omega
        rw [e, Nat.add_mod_right, Nat.mod_eq_of_lt (by omega)]
        omega
      · rw [Nat.mod_eq_of_lt (by omega)]
        omega
    rw [hδ _ hne, mul_zero]

/-- What every call keeps true of a processor built from the impulse response `[1]`. -/
theorem process_identity_step [Ring α]
    (fft : List α → List (Cplx α) → List (Cplx α)) (ifft : List (Cplx α) → List α → List α)
    (B F : Nat) (irs : List (Cplx α)) (hx : ExactTransformPair fft ifft F)
    (hB : 1 ≤ B) (hF : B ≤ F) (s : ConvolutionProcessor α) (input : List α)
    (hin : input.length = B)
    (h1 : s.block_size = B) (h2 : s.fft_size = F)
    (h3 : s.ir_spectrum = fft (std_copy [1] (List.replicate F 0)) irs)
    (h4 : s.overlap_buffer = List.replicate F 0) (h5 : s.input_buffer.length = F) :
    (process_with fft ifft s input).1 = input ∧
    (process_with fft ifft s input).2.block_size = B ∧
    (process_with fft ifft s input).2.fft_size = F ∧
    (process_with fft ifft s input).2.ir_spectrum
      = fft (std_copy [1] (List.replicate F 0)) irs ∧
    (process_with fft ifft s input).2.overlap_buffer = List.replicate F 0 ∧
    (process_with fft ifft s input).2.input_buffer.length = F := by
  have hpad : std_fill_from (std_copy input s.input_buffer) B 0
      = input ++ List.replicate (F - B) 0 := by
    unfold std_fill_from std_copy
    rw [List.take_append_of_le_length (by omega), List.take_of_length_le (by omega),
      List.length_append, List.length_drop, hin, h5]
    congr 2
    omega
  have hpadlen : (input ++ List.replicate (F - B) (0 : α)).length = F := by
    rw [List.length_append, List.length_replicate, hin]
    omega
  have hδlen : (std_copy [(1 : α)] (List.replicate F 0)).length = F := by
    unfold std_copy
    rw [List.length_append, List.length_drop, List.length_replicate]
    simp
    omega
  have hres := hx (input ++ List.replicate (F - B) 0) (std_copy [1] (List.replicate F 0))
    s.fft_buffer irs (List.replicate F 0) hpadlen hδlen
  rw [circular_convolution_delta _ F hpadlen] at hres
  simp only [process_with, h1, h2, h3, h4, hpad, hres]
  refine ⟨?_, trivial, trivial, trivial, ?_, hpadlen⟩
  · conv_rhs => rw [← map_getD_range input, hin]
    apply List.map_congr_left
    intro i hi
    have hiB : i < B := List.mem_range.mp hi
    rw [getD_replicate_zero, add_zero, List.getD_eq_getElem?_getD,
      List.getElem?_append_left (by omega), ← List.getD_eq_getElem?_getD]
  · unfold std_copy
    rw [List.drop_append_of_le_length (by omega), List.drop_of_length_le (by omega),
      List.nil_append, List.drop_replicate, List.length_replicate, ← List.replicate_add]
    congr 1
    omega

theorem process_identity_blocks [Ring α]
    (fft : List α → List (Cplx α) → List (Cplx α)) (ifft : List (Cplx α) → List α → List α)
    (B F : Nat) (irs : List (Cplx α)) (hx : ExactTransformPair fft ifft F)
    (hB : 1 ≤ B) (hF : B ≤ F) (blocks : List (List α))
    (hblocks : ∀ b, b ∈ blocks → b.length = B) (s : ConvolutionProcessor α)
    (h1 : s.block_size = B) (h2 : s.fft_size = F)
    (h3 : s.ir_spectrum = fft (std_copy [1] (List.replicate F 0)) irs)
    (h4 : s.overlap_buffer = List.replicate F 0) (h5 : s.input_buffer.length = F) :
    (process_blocks fft ifft s blocks).1 = blocks ∧
    (process_blocks fft ifft s blocks).2.overlap_buffer = List.replicate F 0 := by
  induction blocks generalizing s with
  | nil => exact ⟨rfl, h4⟩
  | cons b rest ih =>
    have hb := hblocks b (List.mem_cons_self _ _)
    obtain ⟨e1, e2, e3, e4, e5, e6⟩ :=
      process_identity_step fft ifft B F irs hx hB hF s b hb h1 h2 h3 h4 h5
    have hrec := ih (fun c hc => hblocks c (List.mem_cons_of_mem _ hc)) _ e2 e3 e4 e5 e6
    simp only [process_blocks]
    exact ⟨by rw [e1, hrec.1], hrec.2⟩

/-- C7, amended: let `compute_fft`, `compute_ifft` be an exact transform pair
obeying the convolution theorem at the constructed transform size, and let that
size be at least the block size `B ≥ 1`. Then a processor constructed with the
impulse response `[1]` answers every block of length `B` with that block, for every
sequence of blocks, and its overlap buffer stays zero throughout. -/
theorem process_identity_ir [Ring α]
    (fft : List α → List (Cplx α) → List (Cplx α)) (ifft : List (Cplx α) → List α → List α)
    (B ir_length_read : Nat) (blocks : List (List α))
    (hx : ExactTransformPair fft ifft (construct_with fft [(1 : α)] B ir_length_read).fft_size)
    (hB : 1 ≤ B) (hF : B ≤ (construct_with fft [(1 : α)] B ir_length_read).fft_size)
    (hblocks : ∀ b, b ∈ blocks → b.length = B) :
    (process_blocks fft ifft (construct_with fft [1] B ir_length_read) blocks).1 = blocks ∧
    (process_blocks fft ifft (construct_with fft [1] B ir_length_read) blocks).2.overlap_buffer
      = List.replicate (construct_with fft [(1 : α)] B ir_length_read).fft_size 0 :=
  process_identity_blocks fft ifft B _ _ hx hB hF blocks hblocks _ rfl rfl rfl rfl
    (List.length_replicate _ _)

/-- C7, amended, at block size 4 with the exact pair `dft4`, `idft4`: two blocks
pass through unchanged. -/
theorem process_identity_ir_witness :
    ExactTransformPair (dft4 (α := ℚ)) idft4 (construct_with dft4 [(1 : ℚ)] 4 1).fft_size ∧
    (process_blocks dft4 idft4 (construct_with dft4 [(1 : ℚ)] 4 1)
      [[1, 2, 3, 4], [5, 6, 7, 8]]).1 = [[1, 2, 3, 4], [5, 6, 7, 8]] :=
  ⟨dft4_exact,
   (process_identity_ir dft4 idft4 4 1 [[1, 2, 3, 4], [5, 6, 7, 8]] dft4_exact (by decide)
      (by decide) (by simp)).1⟩

end ConvolutionProcessor

/-! ## Parameter store -/

namespace RealtimeAudioProcessor

end RealtimeAudioProcessor

/-! ## Biquad filter: frame of `reset` and of the design functions -/

namespace BiquadFilter

/-- C11: `reset()` sets `x1`, `x2`, `y1`, `y2` to zero and leaves the five
coefficients as they were; `set_lowpass` and `set_highpass` leave the four history
cells as they were (they write only the five coefficients, and what they write does
not depend on the coefficients or the history found). -/
theorem reset_and_design_frames {α : Type} [Field α] (sin cos : α → α) (pi : α)
    (f g : BiquadFilter α) (sample_rate cutoff q : α) :
    ((reset f).x1 = 0 ∧ (reset f).x2 = 0 ∧ (reset f).y1 = 0 ∧ (reset f).y2 = 0) ∧
    ((reset f).b0 = f.b0 ∧ (reset f).b1 = f.b1 ∧ (reset f).b2 = f.b2 ∧
      (reset f).a1 = f.a1 ∧ (reset f).a2 = f.a2) ∧
    ((set_lowpass sin cos pi f sample_rate cutoff q).x1 = f.x1 ∧
      (set_lowpass sin cos pi f sample_rate cutoff q).x2 = f.x2 ∧
      (set_lowpass sin cos pi f sample_rate cutoff q).y1 = f.y1 ∧
      (set_lowpass sin cos pi f sample_rate cutoff q).y2 = f.y2) ∧
    ((set_highpass sin cos pi f sample_rate cutoff q).x1 = f.x1 ∧
      (set_highpass sin cos pi f sample_rate cutoff q).x2 = f.x2 ∧
      (set_highpass sin cos pi f sample_rate cutoff q).y1 = f.y1 ∧
      (set_highpass sin cos pi f sample_rate cutoff q).y2 = f.y2) ∧
    (set_lowpass sin cos pi f sample_rate cutoff q
      = { set_lowpass sin cos pi g sample_rate cutoff q with
          x1 := f.x1, x2 := f.x2, y1 := f.y1, y2 := f.y2 }) ∧
    (set_highpass sin cos pi f sample_rate cutoff q
      = { set_highpass sin cos pi g sample_rate cutoff q with
          x1 := f.x1, x2 := f.x2, y1 := f.y1, y2 := f.y2 }) :=
  ⟨⟨rfl, rfl, rfl, rfl⟩, ⟨rfl, rfl, rfl, rfl, rfl⟩, ⟨rfl, rfl, rfl, rfl⟩,
   ⟨rfl, rfl, rfl, rfl⟩, rfl, rfl⟩

end BiquadFilter

/-! ## Lane-parallel loops -/

theorem simd_end_le (samples m : Nat) : samples &&& m ≤ samples := Nat.and_le_left

theorem simd_end_mod4 (samples : Nat) : (samples &&& wnot 3) % 4 = 0 := by
  have h : (samples &&& wnot 3) % 2 ^ 2 = 0 := by
    rw [← Nat.and_pow_two_sub_one_eq_mod, Nat.and_assoc]
    have : wnot 3 &&& (2 ^ 2 - 1) = 0 := by decide
    rw [this, Nat.and_zero]
  exact h

theorem simd_end_mod8 (samples : Nat) : (samples &&& wnot 7) % 8 = 0 := by
  have h : (samples &&& wnot 7) % 2 ^ 3 = 0 := by
    rw [← Nat.and_pow_two_sub_one_eq_mod, Nat.and_assoc]
    have : wnot 7 &&& (2 ^ 3 - 1) = 0 := by decide
    rw [this, Nat.and_zero]
  exact h

/-- Loading four lanes, applying `g` to each and storing them back changes exactly
the four elements, each to `g` of itself. -/
theorem storeu_map_loadu {α : Type} (g : α → α) (b : Nat → α) (i j : Nat) :
    _mm_storeu_ps b i (M128.map g (_mm_loadu_ps b i)) j
      = if i ≤ j ∧ j < i + 4 then g (b j) else b j := by
  simp only [_mm_storeu_ps, _mm_loadu_ps, M128.map, store]
  split_ifs <;> first | rfl | (exfalso; omega) | (subst_vars; rfl)

/-- Loading eight lanes, applying `g` to each and storing them back changes exactly
the eight elements, each to `g` of itself. -/
theorem storeu256_map_loadu {α : Type} (g : α → α) (b : Nat → α) (i j : Nat) :
    _mm256_storeu_ps b i (M256.map g (_mm256_loadu_ps b i)) j
      = if i ≤ j ∧ j < i + 8 then g (b j) else b j := by
  simp only [_mm256_storeu_ps, _mm256_loadu_ps, M256.map, store]
  split_ifs <;> first | rfl | (exfalso; omega) | (subst_vars; rfl)

/-- A loop whose iteration `k` maps `g` over the `w` elements from `w * k` has, after
`K` iterations, mapped `g` over the first `w * K` elements and nothing else. -/
theorem chunk_loop_spec {α : Type} (w : Nat) (g : α → α) (b : Nat → α)
    (L : Nat → Nat → α) (h0 : L 0 = b)
    (hstep : ∀ k j, L (k + 1) j = if w * k ≤ j ∧ j < w * k + w then g (L k j) else L k j)
    (K j : Nat) : L K j = if j < w * K then g (b j) else b j := by
  induction K with
  | zero => simp [h0]
  | succ K ih =>
    rw [hstep, ih, Nat.mul_succ]
    split_ifs <;> first | rfl | (exfalso; omega)

/-- A loop whose iteration `k` applies `g` to element `start + k` has, after `K`
iterations, applied `g` to the elements `start ≤ j < start + K` and nothing else. -/
theorem index_loop_spec {α : Type} (start : Nat) (g : α → α) (b : Nat → α)
    (L : Nat → Nat → α) (h0 : L 0 = b)
    (hstep : ∀ k j, L (k + 1) j = if j = start + k then g (L k j) else L k j)
    (K j : Nat) : L K j = if start ≤ j ∧ j < start + K then g (b j) else b j := by
  induction K with
  | zero =>
    rw [h0, if_neg (by omega)]
  | succ K ih =>
    rw [hstep, ih]
    split_ifs <;> first | rfl | (exfalso; omega)

/-- A lane loop over `[0, simd_end)` followed by a scalar loop over
`[simd_end, samples)`, both applying `g`, apply `g` to exactly the first `samples`
elements. -/
theorem lanes_then_tail {α : Type} (w : Nat) (hw : 0 < w) (g : α → α) (b : Nat → α)
    (samples simd_end : Nat) (hle : simd_end ≤ samples) (hmod : simd_end % w = 0)
    (lanes : Nat → α) (tail : Nat → α)
    (hl : ∀ j, lanes j = if j < w * ((simd_end + (w - 1)) / w) then g (b j) else b j)
    (ht : ∀ j, tail j
      = if simd_end ≤ j ∧ j < simd_end + (samples - simd_end) then g (lanes j) else lanes j)
    (j : Nat) : tail j = if j < samples then g (b j) else b j := by
  have hcover : w * ((simd_end + (w - 1)) / w) = simd_end := by
    obtain ⟨c, hc⟩ := Nat.dvd_of_mod_eq_zero hmod
    subst hc
    have e : w * c + (w - 1) = (w - 1) + w * c := by omega
    rw [e, Nat.add_mul_div_left _ _ hw, Nat.div_eq_of_lt (by omega), Nat.zero_add]
  rw [ht, hl, hcover]
  split_ifs <;> first | rfl | (exfalso; omega)

namespace AudioProcessor

variable {α : Type}

theorem gain_scalar_loop_spec [Mul α] (start : Nat) (gain : α) (b : Nat → α) (K j : Nat) :
    gain_scalar_loop start gain b K j
      = if start ≤ j ∧ j < start + K then b j * gain else b j := by
  refine index_loop_spec start (fun x => x * gain) b (gain_scalar_loop start gain b) rfl ?_ K j
  intro k i
  show store _ _ _ i = _
  unfold store
  split_ifs with h
  · rw [h]
  · rfl

theorem gain_sse_loop_spec [Mul α] (gain : α) (b : Nat → α) (K j : Nat) :
    gain_sse_loop (_mm_set1_ps gain) b K j = if j < 4 * K then b j * gain else b j := by
  refine chunk_loop_spec 4 (fun x => x * gain) b (gain_sse_loop (_mm_set1_ps gain) b) rfl ?_ K j
  intro k i
  exact storeu_map_loadu (fun x => x * gain) _ (4 * k) i

theorem gain_avx_loop_spec [Mul α] (gain : α) (b : Nat → α) (K j : Nat) :
    gain_avx_loop (_mm256_set1_ps gain) b K j = if j < 8 * K then b j * gain else b j := by
  refine chunk_loop_spec 8 (fun x => x * gain) b (gain_avx_loop (_mm256_set1_ps gain) b)
    rfl ?_ K j
  intro k i
  exact storeu256_map_loadu (fun x => x * gain) _ (8 * k) i

theorem apply_gain_scalar_spec [Mul α] (b : Nat → α) (n : Nat) (gain : α) (j : Nat) :
    apply_gain_scalar b n gain j = if j < n then b j * gain else b j := by
  unfold apply_gain_scalar
  rw [gain_scalar_loop_spec]
  split_ifs <;> first | rfl | (exfalso; omega)

theorem apply_gain_sse_spec [Mul α] (b : Nat → α) (n : Nat) (gain : α) (j : Nat) :
    apply_gain_sse b n gain j = if j < n then b j * gain else b j :=
  lanes_then_tail 4 (by decide) (fun x => x * gain) b n (n &&& wnot 3) (simd_end_le n _)
    (simd_end_mod4 n) _ _ (fun i => gain_sse_loop_spec gain b _ i)
    (fun i => gain_scalar_loop_spec _ gain _ _ i) j

theorem apply_gain_avx_spec [Mul α] (b : Nat → α) (n : Nat) (gain : α) (j : Nat) :
    apply_gain_avx b n gain j = if j < n then b j * gain else b j :=
  lanes_then_tail 8 (by decide) (fun x => x * gain) b n (n &&& wnot 7) (simd_end_le n _)
    (simd_end_mod8 n) _ _ (fun i => gain_avx_loop_spec gain b _ i)
    (fun i => gain_scalar_loop_spec _ gain _ _ i) j

/-- C12: for every buffer, every length `n` (divisible by the lane width or not) and
every gain, `apply_gain_sse` and `apply_gain_avx` leave the buffer exactly as
`apply_gain_scalar` leaves it: every element `i < n` has become `buffer[i] * gain`
(once), and no element at an index `≥ n` is touched. Only `*` is used, with no law
of arithmetic, so the three results are the same for any multiplication. -/
theorem apply_gain_simd_eq_scalar [Mul α] (buffer : Nat → α) (n : Nat) (gain : α) :
    apply_gain_sse buffer n gain = apply_gain_scalar buffer n gain ∧
    apply_gain_avx buffer n gain = apply_gain_scalar buffer n gain ∧
    (∀ i, i < n → apply_gain_scalar buffer n gain i = buffer i * gain) ∧
    (∀ i, n ≤ i → apply_gain_scalar buffer n gain i = buffer i) := by
  refine ⟨?_, ?_, ?_, ?_⟩
  · funext j
    rw [apply_gain_sse_spec, apply_gain_scalar_spec]
  · funext j
    rw [apply_gain_avx_spec, apply_gain_scalar_spec]
  · intro i hi
    rw [apply_gain_scalar_spec, if_pos hi]
  · intro i hi
    rw [apply_gain_scalar_spec, if_neg (by omega)]

/-- C15: with gain `1` each of `apply_gain_scalar`, `apply_gain_sse` and
`apply_gain_avx` leaves every element of the buffer as it was, for every buffer and
every length. -/
theorem apply_gain_one [MulOneClass α] (buffer : Nat → α) (n : Nat) :
    apply_gain_scalar buffer n 1 = buffer ∧
    apply_gain_sse buffer n 1 = buffer ∧
    apply_gain_avx buffer n 1 = buffer := by
  refine ⟨?_, ?_, ?_⟩
  · funext j
    rw [apply_gain_scalar_spec, mul_one, ite_self]
  · funext j
    rw [apply_gain_sse_spec, mul_one, ite_self]
  · funext j
    rw [apply_gain_avx_spec, mul_one, ite_self]

end AudioProcessor

/-! ## Wave shaper -/

namespace WaveShaper

variable {α : Type}

end WaveShaper

namespace WaveShaper

variable {α : Type}

end WaveShaper

/-! ## Construction-time checks -/

/-- For a positive `n`, the test `n & (n - 1) == 0` holds exactly for powers of two. -/
theorem and_pred_eq_zero_iff (n : Nat) (hn : 0 < n) :
    n &&& (n - 1) = 0 ↔ ∃ k, n = 2 ^ k := by
  constructor
  · induction n using Nat.strong_induction_on with
    | _ n ih =>
      intro h
      by_cases h1 : n = 1
      · exact ⟨0, h1⟩
      · have hdiv : n / 2 &&& (n - 1) / 2 = 0 := by
          rw [← Nat.and_div_two, h]
        rcases Nat.mod_two_eq_zero_or_one n with hpar | hpar
        · have e1 : (n - 1) / 2 = n / 2 - 1 := by omega
          rw [e1] at hdiv
          obtain ⟨k, hk⟩ := ih (n / 2) (by omega) (by omega) hdiv
          refine ⟨k + 1, ?_⟩
          rw [Nat.pow_succ, ← hk]
          omega
        · exfalso
          have e1 : (n - 1) / 2 = n / 2 := by omega
          rw [e1, Nat.and_self] at hdiv
          omega
  · rintro ⟨k, rfl⟩
    rw [Nat.and_pow_two_sub_one_eq_mod, Nat.mod_self]

namespace LockFreeRingBuffer

/-- On every capacity from 1 up that fits a `size_t`, the `static_assert` accepts
exactly the powers of two. -/
theorem static_assert_Size_of_pos (Size : Nat) (h0 : 0 < Size) (h1 : Size < WORD) :
    static_assert_Size Size = true ↔ ∃ k, Size = 2 ^ k := by
  unfold static_assert_Size
  rw [wsub_of_le h0 h1, beq_iff_eq]
  exact and_pred_eq_zero_iff Size h0

/-- C18, evaluated: the `static_assert` accepts the capacity `0`, which is not a
power of two. -/
theorem static_assert_accepts_zero :
    static_assert_Size 0 = true ∧ ¬ ∃ k, 0 = 2 ^ k := by
  refine ⟨by decide, ?_⟩
  rintro ⟨k, hk⟩
  have := Nat.pos_pow_of_pos k (show 0 < 2 by decide)
  omega

end LockFreeRingBuffer

/-! ## `next_power_of_2` -/

/-- One smearing step `x |= x >> w` doubles the window of bits gathered from `m`. -/
theorem smear_step (m x w : Nat)
    (h : ∀ i, x.testBit i = true ↔ ∃ s, s < w ∧ m.testBit (i + s) = true) :
    ∀ i, (x ||| x >>> w).testBit i = true ↔ ∃ s, s < 2 * w ∧ m.testBit (i + s) = true := by
  intro i
  rw [Nat.testBit_or, Nat.testBit_shiftRight, Bool.or_eq_true, h, h]
  constructor
  · rintro (⟨s, hs, hb⟩ | ⟨s, hs, hb⟩)
    · exact ⟨s, by omega, hb⟩
    · refine ⟨w + s, by omega, ?_⟩
      have e : i + (w + s) = w + i + s := by omega
      rw [e]
      exact hb
  · rintro ⟨s, hs, hb⟩
    by_cases hsw : s < w
    · exact Or.inl ⟨s, hsw, hb⟩
    · refine Or.inr ⟨s - w, by omega, ?_⟩
      have e : w + i + (s - w) = i + s := by omega
      rw [e]
      exact hb

/-- The five smearing steps gather, at every bit, the 32 bits of `m` from there up. -/
theorem smear_32 (m : Nat) :
    ∀ i, (((((m ||| m >>> 1) ||| (m ||| m >>> 1) >>> 2)
          ||| ((m ||| m >>> 1) ||| (m ||| m >>> 1) >>> 2) >>> 4)
          ||| (((m ||| m >>> 1) ||| (m ||| m >>> 1) >>> 2)
            ||| ((m ||| m >>> 1) ||| (m ||| m >>> 1) >>> 2) >>> 4) >>> 8)
          ||| ((((m ||| m >>> 1) ||| (m ||| m >>> 1) >>> 2)
            ||| ((m ||| m >>> 1) ||| (m ||| m >>> 1) >>> 2) >>> 4)
            ||| (((m ||| m >>> 1) ||| (m ||| m >>> 1) >>> 2)
              ||| ((m ||| m >>> 1) ||| (m ||| m >>> 1) >>> 2) >>> 4) >>> 8) >>> 16).testBit i
        = true ↔ ∃ s, s < 32 ∧ m.testBit (i + s) = true := by
  have h0 : ∀ i, m.testBit i = true ↔ ∃ s, s < 1 ∧ m.testBit (i + s) = true := by
    intro i
    constructor
    · intro hb
      exact ⟨0, by omega, hb⟩
    · rintro ⟨s, hs, hb⟩
      have : s = 0 := by omega
      subst this
      exact hb
  have h1 := smear_step m _ 1 h0
  have h2 := smear_step m _ 2 h1
  have h3 := smear_step m _ 4 h2
  have h4 := smear_step m _ 8 h3
  exact smear_step m _ 16 h4

namespace ConvolutionProcessor

/-- For `1 ≤ n ≤ 2 ^ 32` the function `next_power_of_2` returns the smallest power
of two that is at least `n`. -/
theorem next_power_of_2_upto_32 (n : Nat) (h1 : 1 ≤ n) (h2 : n ≤ 2 ^ 32) :
    SmallestPowerOfTwoGe (next_power_of_2 n) n := by
  have hW : WORD = 18446744073709551616 := by decide
  have hn : n < WORD := by
    rw [hW]
    have : (2 : Nat) ^ 32 = 4294967296 := by decide
    omega
  have hsub : wsub n 1 = n - 1 := wsub_of_le h1 hn
  unfold next_power_of_2
  simp only [hsub]
  generalize hm : n - 1 = m
  have hm32 : m < 2 ^ 32 := by omega
  have hsm := smear_32 m
  generalize hx : ((((m ||| m >>> 1) ||| (m ||| m >>> 1) >>> 2)
          ||| ((m ||| m >>> 1) ||| (m ||| m >>> 1) >>> 2) >>> 4)
          ||| (((m ||| m >>> 1) ||| (m ||| m >>> 1) >>> 2)
            ||| ((m ||| m >>> 1) ||| (m ||| m >>> 1) >>> 2) >>> 4) >>> 8)
          ||| ((((m ||| m >>> 1) ||| (m ||| m >>> 1) >>> 2)
            ||| ((m ||| m >>> 1) ||| (m ||| m >>> 1) >>> 2) >>> 4)
            ||| (((m ||| m >>> 1) ||| (m ||| m >>> 1) >>> 2)
              ||| ((m ||| m >>> 1) ||| (m ||| m >>> 1) >>> 2) >>> 4) >>> 8) >>> 16 = x at hsm ⊢
  by_cases hm0 : m = 0
  · have hx0 : x = 0 := by
      apply Nat.eq_of_testBit_eq
      intro i
      rw [Nat.zero_testBit]
      by_contra hne
      obtain ⟨s, _, hb⟩ := (hsm i).mp (by simpa using hne)
      rw [hm0, Nat.zero_testBit] at hb
      exact absurd hb (by decide)
    have hn1 : n = 1 := by omega
    rw [hx0, hn1]
    refine ⟨⟨0, by decide⟩, by decide, ?_⟩
    rintro q ⟨k, rfl⟩ _
    have : wadd 0 1 = 1 := by decide
    rw [this]
    exact Nat.pos_pow_of_pos k (by decide)
  · obtain ⟨h, hbit, hhigh⟩ := Nat.exists_most_significant_bit hm0
    have hge : 2 ^ h ≤ m := Nat.testBit_implies_ge hbit
    have hlt : m < 2 ^ (h + 1) := by
      apply Nat.lt_pow_two_of_testBit
      intro j hj
      exact hhigh j (by omega)
    have hh : h < 32 := by
      by_contra hcon
      have : 2 ^ 32 ≤ 2 ^ h := Nat.pow_le_pow_right (by decide) (by omega)
      omega
    have hxv : x = 2 ^ (h + 1) - 1 := by
      apply Nat.eq_of_testBit_eq
      intro i
      rw [Nat.testBit_two_pow_sub_one]
      by_cases hi : i < h + 1
      · rw [decide_eq_true hi]
        exact (hsm i).mpr ⟨h - i, by omega, by
          have e : i + (h - i) = h := by omega
          rw [e]
          exact hbit⟩
      · rw [decide_eq_false hi]
        by_contra hne
        obtain ⟨s, _, hb⟩ := (hsm i).mp (by simpa using hne)
        rw [hhigh (i + s) (by omega)] at hb
        exact absurd hb (by decide)
    have hpos : 0 < 2 ^ (h + 1) := Nat.pos_pow_of_pos _ (by decide)
    have hbound : 2 ^ (h + 1) ≤ 2 ^ 32 := Nat.pow_le_pow_right (by decide) (by omega)
    have hval : wadd x 1 = 2 ^ (h + 1) := by
      unfold wadd
      rw [hxv, hW]
      have : (2 : Nat) ^ 32 = 4294967296 := by decide
      omega
    rw [hval]
    refine ⟨⟨h + 1, rfl⟩, by omega, ?_⟩
    rintro q ⟨k, rfl⟩ hq
    apply Nat.pow_le_pow_right (by decide)
    by_contra hk
    have : 2 ^ k ≤ 2 ^ h := Nat.pow_le_pow_right (by decide) (by omega)
    omega

/-- C16, evaluated: `next_power_of_2(2^32 + 1)` is `2^33 - 1`, which is not the
smallest power of two at least `2^32 + 1` (that is `2^33`, representable in 64
bits): the smearing stops at the shift by 16, so it covers only 32 bits. And the
transform size of a constructed processor is computed from the value `ir_length`
holds before its initialisation: for the impulse response `[1, 0, 1]` and block
size 2, a read of `0` gives transform size 1 where `2 + 3 - 1 = 4` is needed. -/
theorem next_power_of_2_misses_bit_32 :
    next_power_of_2 (2 ^ 32 + 1) = 2 ^ 33 - 1 ∧
    ¬ SmallestPowerOfTwoGe (next_power_of_2 (2 ^ 32 + 1)) (2 ^ 32 + 1) ∧
    SmallestPowerOfTwoGe (2 ^ 33) (2 ^ 32 + 1) ∧ 2 ^ 33 < WORD ∧
    (construct_with compute_fft ([1, 0, 1] : List ℚ) 2 0).fft_size = 1 ∧
    ¬ SmallestPowerOfTwoGe (construct_with compute_fft ([1, 0, 1] : List ℚ) 2 0).fft_size
        (2 + ([1, 0, 1] : List ℚ).length - 1) := by
  have hv : next_power_of_2 (2 ^ 32 + 1) = 2 ^ 33 - 1 := by decide
  have hf : (construct_with compute_fft ([1, 0, 1] : List ℚ) 2 0).fft_size = 1 := by decide
  refine ⟨hv, ?_, ?_, by decide, hf, ?_⟩
  · rintro ⟨⟨k, hk⟩, _, _⟩
    rw [hv] at hk
    rcases k with _ | k
    · exact absurd hk (by decide)
    · have h33 : (2 : Nat) ^ 33 - 1 = 8589934591 := by decide
      rw [h33, Nat.pow_succ] at hk
      omega
  · refine ⟨⟨33, rfl⟩, by decide, ?_⟩
    rintro q ⟨k, rfl⟩ hq
    apply Nat.pow_le_pow_right (by decide)
    by_contra hk
    have h1 : 2 ^ k ≤ 2 ^ 32 := Nat.pow_le_pow_right (by decide) (by omega)
    omega
  · rintro ⟨_, hle, _⟩
    rw [hf] at hle
    exact absurd hle (by decide)

end ConvolutionProcessor

namespace ConvolutionProcessor

end ConvolutionProcessor

/-! ## Audio engine: recomputing the design against a dirty flag -/

namespace BiquadFilter

variable {α : Type}

/-- The call `process` leaves the five coefficients as they were. -/
theorem process_coeffs [Add α] [Sub α] [Mul α] (f : BiquadFilter α) (x : α) :
    (process f x).2.b0 = f.b0 ∧ (process f x).2.b1 = f.b1 ∧ (process f x).2.b2 = f.b2 ∧
    (process f x).2.a1 = f.a1 ∧ (process f x).2.a2 = f.a2 := ⟨rfl, rfl, rfl, rfl, rfl⟩

end BiquadFilter

namespace RealtimeAudioProcessor

variable {α : Type}

end RealtimeAudioProcessor

/-! ## Biquad filter: stability of the designed feedback coefficients -/

namespace BiquadFilter

end BiquadFilter

/-! ## Wave shaper: the soft clipper's value before the clamp -/

namespace WaveShaper

variable {α : Type}

end WaveShaper

end Lowlat
